import Mathlib

/-
Shallow embedding of the annotation-to-mask core of the afm-cell-mask-pipeline
repository: src/code/02_make_masks.py (authoritative) together with the
permissive variant src/code/02_make_masks_hoseyn.py.  Python strings are
embedded as lists of characters, Python dicts as association lists with
overwrite-on-insert, Python ints as Nat/Int, and the one raising code path
(an attribute access on a failed regex search inside choose_rate_image) as an
Except error.  The external raster library call (cv2.drawContours) is a
parameter of the rasterizer; every property proved about the rasterizer holds
for an arbitrary fill routine.
-/

/-- A Python string, embedded as its list of characters. -/
abbrev Str := List Char

/-- Python str.lower (ASCII is all that occurs in the pipeline's names). -/
def lowerStr (s : Str) : Str := s.map Char.toLower

/-- Decimal digit characters of a positive number below the fuel bound,
most significant first (structural recursion on the fuel so that concrete
values reduce inside the kernel). -/
def natStrAux : Nat → Nat → Str
  | _, 0 => []
  | 0, _ => []
  | fuel + 1, n => natStrAux fuel (n / 10) ++ [Nat.digitChar (n % 10)]

/-- Decimal digit characters of a natural number, most significant first;
models Python str(n) for n >= 0. -/
def natStr (n : Nat) : Str :=
  if n = 0 then ['0'] else natStrAux n n

theorem natStrAux_eq_digits (fuel : Nat) :
    ∀ n, n ≤ fuel → natStrAux fuel n = ((Nat.digits 10 n).map Nat.digitChar).reverse := by
  induction fuel with
  | zero =>
    intro n hn
    interval_cases n
    simp [natStrAux]
  | succ f ih =>
    intro n hn
    cases n with
    | zero => simp [natStrAux]
    | succ n0 =>
      show natStrAux f ((n0 + 1) / 10) ++ [Nat.digitChar ((n0 + 1) % 10)] = _
      rw [ih ((n0 + 1) / 10) (by omega), Nat.digits_def' (by norm_num) (Nat.succ_pos n0)]
      simp

theorem natStr_eq (n : Nat) :
    natStr n = if n = 0 then ['0']
      else ((Nat.digits 10 n).map Nat.digitChar).reverse := by
  unfold natStr
  by_cases h : n = 0
  · simp [h]
  · simp only [h, if_false]
    exact natStrAux_eq_digits n n (le_refl n)

/-- Left zero-padding to a given width, as the 0-fill of a Python format
spec 0Nd does on the digits of a nonnegative value. -/
def padZ (w : Nat) (s : Str) : Str := List.replicate (w - s.length) '0' ++ s

/-- Python format spec 0Nd applied to a natural number. -/
def fmtNat (w n : Nat) : Str := padZ w (natStr n)

/-- Python format spec 0Nd applied to an integer: for a negative value the
sign is emitted first and counts toward the width, zeros fill after it. -/
def fmtInt (w : Nat) (i : Int) : Str :=
  if i < 0 then '-' :: padZ (w - 1) (natStr i.natAbs) else fmtNat w i.toNat

/-- Numeric value of a decimal digit character. -/
def digitVal (c : Char) : Nat := c.toNat - '0'.toNat

/-- Python int() applied to a (nonempty) string of decimal digits. -/
def strToNat (s : Str) : Nat := s.foldl (fun a c => 10 * a + digitVal c) 0

-- ---------- formatting / parsing round-trip lemmas ----------

theorem digitVal_digitChar {d : Nat} (h : d < 10) :
    digitVal (Nat.digitChar d) = d := by
  interval_cases d <;> rfl

theorem isDigit_digitChar {d : Nat} (h : d < 10) :
    (Nat.digitChar d).isDigit = true := by
  interval_cases d <;> rfl

theorem strToNat_aux (ds : List Nat) (a : Nat) (h : ∀ d ∈ ds, d < 10) :
    List.foldl (fun a c => 10 * a + digitVal c) a ((ds.map Nat.digitChar).reverse) =
      a * 10 ^ ds.length + Nat.ofDigits 10 ds := by
  induction ds generalizing a with
  | nil => simp [Nat.ofDigits]
  | cons d t ih =>
    have hd : d < 10 := h d (List.mem_cons_self d t)
    have ht : ∀ x ∈ t, x < 10 := fun x hx => h x (List.mem_cons_of_mem d hx)
    simp only [List.map_cons, List.reverse_cons, List.foldl_append, List.foldl_cons,
      List.foldl_nil, ih a ht, digitVal_digitChar hd, Nat.ofDigits_cons,
      List.length_cons]
    ring

theorem strToNat_natStr (n : Nat) : strToNat (natStr n) = n := by
  rw [natStr_eq]
  unfold strToNat
  by_cases h : n = 0
  · subst h; simp; rfl
  · simp only [h, if_false]
    rw [strToNat_aux _ 0 (fun d hd => Nat.digits_lt_base (by norm_num) hd)]
    simp [Nat.ofDigits_digits]

theorem natStr_digits (n : Nat) : ∀ c ∈ natStr n, c.isDigit = true := by
  intro c hc
  rw [natStr_eq] at hc
  by_cases h : n = 0
  · subst h; simp at hc; subst hc; rfl
  · simp only [h, if_false, List.mem_reverse, List.mem_map] at hc
    obtain ⟨d, hd, rfl⟩ := hc
    exact isDigit_digitChar (Nat.digits_lt_base (by norm_num) hd)

theorem natStr_ne_nil (n : Nat) : natStr n ≠ [] := by
  rw [natStr_eq]
  by_cases h : n = 0
  · simp [h]
  · simp only [h, if_false, ne_eq, List.reverse_eq_nil_iff, List.map_eq_nil_iff]
    exact Nat.digits_ne_nil_iff_ne_zero.mpr h

theorem padZ_digits {s : Str} (hs : ∀ c ∈ s, c.isDigit = true) (w : Nat) :
    ∀ c ∈ padZ w s, c.isDigit = true := by
  intro c hc
  unfold padZ at hc
  rcases List.mem_append.mp hc with h | h
  · rcases List.eq_of_mem_replicate h with rfl; rfl
  · exact hs c h

theorem padZ_ne_nil {s : Str} (hs : s ≠ []) (w : Nat) : padZ w s ≠ [] := by
  unfold padZ
  intro h
  rcases List.append_eq_nil.mp h with ⟨-, h2⟩
  exact hs h2

theorem foldl_digits_zero (k : Nat) :
    List.foldl (fun a c => 10 * a + digitVal c) 0 (List.replicate k '0') = 0 := by
  induction k with
  | zero => rfl
  | succ n ih =>
    have h0 : (fun a c => 10 * a + digitVal c) 0 '0' = 0 := by decide
    simp only [List.replicate_succ, List.foldl_cons, h0, ih]

theorem strToNat_padZ_natStr (w n : Nat) : strToNat (padZ w (natStr n)) = n := by
  unfold strToNat padZ
  rw [List.foldl_append, foldl_digits_zero]
  exact strToNat_natStr n

theorem strToNat_fmtNat (w n : Nat) : strToNat (fmtNat w n) = n :=
  strToNat_padZ_natStr w n

theorem fmtNat_digits (w n : Nat) : ∀ c ∈ fmtNat w n, c.isDigit = true :=
  padZ_digits (natStr_digits n) w

theorem fmtNat_ne_nil (w n : Nat) : fmtNat w n ≠ [] :=
  padZ_ne_nil (natStr_ne_nil n) w

theorem fmtInt_ofNat (w m : Nat) : fmtInt w (m : Int) = fmtNat w m := by
  unfold fmtInt
  simp

-- ---------- takeWhile helpers ----------

theorem takeWhile_digits_append (A B : Str) (hA : ∀ c ∈ A, c.isDigit = true)
    (hB : ∀ c, B.head? = some c → c.isDigit = false) :
    (A ++ B).takeWhile Char.isDigit = A := by
  induction A with
  | nil =>
    cases B with
    | nil => rfl
    | cons b t => simp [List.takeWhile_cons, hB b rfl]
  | cons a t ih =>
    have ha : a.isDigit = true := hA a (List.mem_cons_self a t)
    have ht : ∀ c ∈ t, c.isDigit = true := fun c hc => hA c (List.mem_cons_of_mem a hc)
    simp [List.takeWhile_cons, ha, ih ht]

theorem takeWhile_digits_self (A : Str) (hA : ∀ c ∈ A, c.isDigit = true) :
    A.takeWhile Char.isDigit = A := by
  have := takeWhile_digits_append A [] hA (by intro c hc; simp at hc)
  simpa using this

-- ---------- the two regex searches used by 02_make_masks.py ----------

/-- One attempted match of the regex meas(\d+) at the head of the string:
the literal letters m, e, a, s followed by a maximal nonempty run of digits. -/
def measAt (s : Str) : Option Nat :=
  match s with
  | 'm' :: 'e' :: 'a' :: 's' :: rest =>
    let ds := rest.takeWhile Char.isDigit
    if ds.isEmpty then none else some (strToNat ds)
  | _ => none

/-- Python re.search with pattern meas(\d+): leftmost position where the
pattern matches, value of its digit group. -/
def searchMeas : Str → Option Nat
  | [] => none
  | c :: rest =>
    match measAt (c :: rest) with
    | some n => some n
    | none => searchMeas rest

/-- One attempted match of the regex cell(\d+)meas(\d+) at the head of the
string.  The first digit group is greedy and digits cannot begin the literal
meas, so the group is exactly the maximal digit run after the literal cell,
and meas(\d+) must match immediately after it. -/
def cellMeasAt (s : Str) : Option (Nat × Nat) :=
  match s with
  | 'c' :: 'e' :: 'l' :: 'l' :: rest =>
    let ds := rest.takeWhile Char.isDigit
    if ds.isEmpty then none
    else
      match measAt (rest.drop ds.length) with
      | some m => some (strToNat ds, m)
      | none => none
  | _ => none

/-- Python re.search with pattern cell(\d+)meas(\d+). -/
def searchCellMeas : Str → Option (Nat × Nat)
  | [] => none
  | c :: rest =>
    match cellMeasAt (c :: rest) with
    | some v => some v
    | none => searchCellMeas rest

/-- The characters of the literal "cell". -/
def cellLit : Str := ['c', 'e', 'l', 'l']

/-- The characters of the literal "meas". -/
def measLit : Str := ['m', 'e', 'a', 's']

/-- The characters of the literal "overlay". -/
def overlayLit : Str := ['o', 'v', 'e', 'r', 'l', 'a', 'y']

/-- The f-string cell{cell:02d}meas, the stem prefix shared by every file of
one cell (line 87 and line 129 of 02_make_masks.py). -/
def prefixFor (cell : Nat) : Str := cellLit ++ fmtNat 2 cell ++ measLit

/-- The f-string cell{cell:02d}meas{i:04d} (line 122 of 02_make_masks.py);
the measurement slot is an Int because the probed offsets may be negative. -/
def rateStem (cell : Nat) (i : Int) : Str := prefixFor cell ++ fmtInt 4 i

/-- The canonical stem cell{cell:02d}meas{meas:04d} of a nonnegative key. -/
def canonStem (cell meas : Nat) : Str := rateStem cell (meas : Int)

/-- stem_for of 02_make_masks.py line 109: parse the two decimal key strings
and format the canonical stem (the result is lowercase by construction). -/
def stemFor (cellStr measStr : Str) : Str :=
  canonStem (strToNat cellStr) (strToNat measStr)

-- ---------- round-trips for the canonical stems ----------

theorem measAt_lit (D : Str) (hD : ∀ c ∈ D, c.isDigit = true) (hne : D ≠ []) :
    measAt (measLit ++ D) = some (strToNat D) := by
  have h1 : measAt (measLit ++ D) =
      (if (D.takeWhile Char.isDigit).isEmpty then none
       else some (strToNat (D.takeWhile Char.isDigit))) := rfl
  rw [h1, takeWhile_digits_self D hD]
  simp [List.isEmpty_iff, hne]

theorem cellMeasAt_canon (c m : Nat) :
    cellMeasAt (canonStem c m) = some (c, m) := by
  have hstem : canonStem c m =
      'c' :: 'e' :: 'l' :: 'l' :: (fmtNat 2 c ++ (measLit ++ fmtNat 4 m)) := by
    unfold canonStem rateStem prefixFor
    rw [fmtInt_ofNat]
    simp [cellLit]
  set R := fmtNat 2 c ++ (measLit ++ fmtNat 4 m) with hR
  have h1 : cellMeasAt ('c' :: 'e' :: 'l' :: 'l' :: R) =
      (if (R.takeWhile Char.isDigit).isEmpty then none
       else
        match measAt (R.drop (R.takeWhile Char.isDigit).length) with
        | some m => some (strToNat (R.takeWhile Char.isDigit), m)
        | none => none) := rfl
  have htake : R.takeWhile Char.isDigit = fmtNat 2 c := by
    rw [hR]
    apply takeWhile_digits_append _ _ (fmtNat_digits 2 c)
    intro x hx
    have hx' : x = 'm' := by
      have : (measLit ++ fmtNat 4 m).head? = some 'm' := rfl
      rw [this] at hx
      exact (Option.some.inj hx).symm
    rw [hx']; rfl
  have hdrop : R.drop (fmtNat 2 c).length = measLit ++ fmtNat 4 m :=
    List.drop_left _ _
  rw [hstem, h1, htake, hdrop,
    measAt_lit (fmtNat 4 m) (fmtNat_digits 4 m) (fmtNat_ne_nil 4 m)]
  simp [List.isEmpty_iff, fmtNat_ne_nil 2 c, strToNat_fmtNat]

theorem searchCellMeas_canon (c m : Nat) :
    searchCellMeas (canonStem c m) = some (c, m) := by
  have hstem : canonStem c m =
      'c' :: 'e' :: 'l' :: 'l' :: (fmtNat 2 c ++ (measLit ++ fmtNat 4 m)) := by
    unfold canonStem rateStem prefixFor
    rw [fmtInt_ofNat]
    simp [cellLit]
  have h1 : ∀ x : Char, ∀ r : Str, searchCellMeas (x :: r) =
      (match cellMeasAt (x :: r) with
       | some v => some v
       | none => searchCellMeas r) := fun _ _ => rfl
  rw [hstem, h1, ← hstem, cellMeasAt_canon c m]

-- ---------- directory entries and association lists ----------

/-- Python substring test (the operator in on strings). -/
def containsStr (needle hay : Str) : Bool := decide (needle <:+: hay)

/-- One entry of a dataset directory: the filename stem, its extension
(suffix, dot included), whether the entry is a regular file, and the name of
the containing folder (iterdir is not recursive, so every entry of one call
shares the folder name; img_path.parent.name reads exactly this field). -/
structure DirFile where
  stem : Str
  ext : Str
  isFile : Bool
  parentName : Str
  deriving DecidableEq

/-- Python dict lookup d.get(k) / d[k] on an association list. -/
def lookupA {β : Type} (l : List (Str × β)) (k : Str) : Option β :=
  match l with
  | [] => none
  | (k2, v) :: t => if k2 = k then some v else lookupA t k

/-- Python dict lookup keyed by integers. -/
def lookupZ {β : Type} (l : List (Int × β)) (k : Int) : Option β :=
  match l with
  | [] => none
  | (k2, v) :: t => if k2 = k then some v else lookupZ t k

/-- Python dict assignment d[k] = v: overwrite in place if the key exists
(keeping its position), else append at the end. -/
def insertZ {β : Type} (l : List (Int × β)) (k : Int) (v : β) : List (Int × β) :=
  match l with
  | [] => [(k, v)]
  | (k2, v2) :: t => if k2 = k then (k, v) :: t else (k2, v2) :: insertZ t k v

/-- Python dict assignment on string keys. -/
def insertA {β : Type} (l : List (Str × β)) (k : Str) (v : β) : List (Str × β) :=
  match l with
  | [] => [(k, v)]
  | (k2, v2) :: t => if k2 = k then (k, v) :: t else (k2, v2) :: insertA t k v

-- ---------- find_images and the stem indexes ----------

/-- find_images of 02_make_masks.py (strict): keep regular files with a
.tif/.tiff suffix (lowercased) whose stem does not contain "overlay". -/
def findImages (folder : List DirFile) : List DirFile :=
  folder.filter (fun p =>
    p.isFile &&
    (lowerStr p.ext = ".tif".toList || lowerStr p.ext = ".tiff".toList) &&
    !(containsStr overlayLit (lowerStr p.stem)))

/-- find_images of 02_make_masks_hoseyn.py (permissive): keep regular files
whose lowercased suffix is one of .tif/.tiff/.png/.jpg/.jpeg; no overlay or
parent-folder exclusion. -/
def findImagesPermissive (folder : List DirFile) : List DirFile :=
  folder.filter (fun p =>
    p.isFile &&
    (lowerStr p.ext = ".tif".toList || lowerStr p.ext = ".tiff".toList ||
     lowerStr p.ext = ".png".toList || lowerStr p.ext = ".jpg".toList ||
     lowerStr p.ext = ".jpeg".toList))

/-- Sort a directory listing by full filename, modelling
sorted(img_folder.iterdir()). -/
def sortDir (folder : List DirFile) : List DirFile :=
  folder.insertionSort (fun a b => a.stem ++ a.ext ≤ b.stem ++ b.ext)

/-- index_images_by_stem of 02_make_masks.py lines 68-81 (strict variant):
fold over the sorted listing, keep .tif/.tiff regular files, skip an entry
whose parent folder is named masks or overlays, skip stems containing
"overlay", and map the lowercased stem to the file. -/
def indexImagesByStem (folder : List DirFile) : List (Str × DirFile) :=
  (sortDir folder).foldl
    (fun idx p =>
      if p.isFile &&
         (lowerStr p.ext = ".tif".toList || lowerStr p.ext = ".tiff".toList) &&
         !(p.parentName = "masks".toList || p.parentName = "overlays".toList) &&
         !(containsStr overlayLit (lowerStr p.stem))
      then insertA idx (lowerStr p.stem) p
      else idx)
    []

/-- index_images_by_stem of 02_make_masks_hoseyn.py line 61-62 (permissive
variant): the dict comprehension over find_images. -/
def indexImagesByStemPermissive (folder : List DirFile) : List (Str × DirFile) :=
  (findImagesPermissive folder).foldl
    (fun idx p => insertA idx (lowerStr p.stem) p) []

-- ---------- the rapid chooser ----------

/-- list_images_for_cell of 02_make_masks.py lines 85-94: among find_images
of the folder, keep stems that start with cell{cell:02d}meas and map the
regex-extracted measurement integer to the file.  Keys are Int because the
caller also probes measurement - 1, which can be negative. -/
def listImagesForCell (folder : List DirFile) (cellStr : Str) : List (Int × DirFile) :=
  (findImages folder).foldl
    (fun acc p =>
      let s := lowerStr p.stem
      if (prefixFor (strToNat cellStr)).isPrefixOf s then
        match searchMeas s with
        | some m => insertZ acc (m : Int) p
        | none => acc
      else acc)
    []

/-- The minimum of the keys of a nonempty integer-keyed dict,
min(by_meas.keys()). -/
def minKeysZ {β : Type} (l : List (Int × β)) : Int :=
  match l.map Prod.fst with
  | [] => 0
  | k :: t => t.foldl min k

/-- choose_rapid_image of 02_make_masks.py lines 96-106: exact measurement,
then measurement - 1, then the smallest measurement present for the cell;
None when the cell has no image at all. -/
def chooseRapidImage (folder : List DirFile) (cellStr measStr : Str) :
    Option DirFile :=
  let annotMeas : Int := strToNat measStr
  let byMeas := listImagesForCell folder cellStr
  if byMeas.isEmpty then none
  else
    match lookupZ byMeas annotMeas with
    | some p => some p
    | none =>
      match lookupZ byMeas (annotMeas - 1) with
      | some p => some p
      | none => lookupZ byMeas (minKeysZ byMeas)

-- ---------- the rate chooser ----------

/-- The probe order of measurement offsets, line 121 of 02_make_masks.py. -/
def offsetDeltas : List Int := [-1, -2, 1]

/-- The offset loop of choose_rate_image lines 121-124: probe the stems at
offsets -1, -2, +1 in that order, first hit in the index wins. -/
def tryOffsets (cell meas : Nat) (idx : List (Str × DirFile)) : Option DirFile :=
  offsetDeltas.foldl
    (fun acc d =>
      match acc with
      | some p => some p
      | none => lookupA idx (rateStem cell ((meas : Int) + d)))
    none

/-- The generator expression of choose_rate_image lines 126-130 before
sorting: the pairs (measurement value, key) for the index keys of this cell.
A key that starts with the cell prefix but contains no meas<digits> run
makes the Python expression raise AttributeError (.group(1) of None); that
raise is the none case here. -/
def perCellPairs (cell : Nat) (idx : List (Str × DirFile)) :
    Option (List (Nat × Str)) :=
  ((idx.map Prod.fst).filter (fun k => (prefixFor cell).isPrefixOf k)).mapM
    (fun k => (searchMeas k).map (fun m => (m, k)))

/-- The ascending order Python sorted() uses on (int, str) tuples. -/
def pairLe (a b : Nat × Str) : Prop := a.1 < b.1 ∨ (a.1 = b.1 ∧ a.2 ≤ b.2)

instance : DecidableRel pairLe := fun a b => by
  unfold pairLe; exact inferInstance

instance : IsTotal (Nat × Str) pairLe where
  total a b := by
    unfold pairLe
    rcases Nat.lt_trichotomy a.1 b.1 with h | h | h
    · exact Or.inl (Or.inl h)
    · rcases le_total a.2 b.2 with h2 | h2
      · exact Or.inl (Or.inr ⟨h, h2⟩)
      · exact Or.inr (Or.inr ⟨h.symm, h2⟩)
    · exact Or.inr (Or.inl h)

instance : IsTrans (Nat × Str) pairLe where
  trans a b c hab hbc := by
    unfold pairLe at *
    rcases hab with h1 | ⟨h1, h1s⟩
    · rcases hbc with h2 | ⟨h2, h2s⟩
      · exact Or.inl (h1.trans h2)
      · exact Or.inl (h2 ▸ h1)
    · rcases hbc with h2 | ⟨h2, h2s⟩
      · exact Or.inl (h1 ▸ h2)
      · exact Or.inr ⟨h1.trans h2, h1s.trans h2s⟩

/-- Python min(iterable, key=f): the first element attaining the minimal
key value (ties keep the earlier element). -/
def minBy {α : Type} (f : α → Nat) (a : α) (l : List α) : α :=
  l.foldl (fun b t => if f t < f b then t else b) a

/-- choose_rate_image of 02_make_masks.py lines 112-134: exact stem, then
offsets -1, -2, +1, then the nearest measurement among the keys of the same
cell (Python sorted + min with an absolute-difference key, so ties go to the
smallest (measurement, key) tuple); None when the stem has no cell/meas
shape or the cell has no indexed key at all.  The error case is the
AttributeError raised when a key of the cell has no parsable measurement. -/
def chooseRateImage (stem : Str) (idx : List (Str × DirFile)) :
    Except Unit (Option DirFile) :=
  match lookupA idx stem with
  | some p => .ok (some p)
  | none =>
    match searchCellMeas stem with
    | none => .ok none
    | some (cell, meas) =>
      match tryOffsets cell meas idx with
      | some p => .ok (some p)
      | none =>
        match perCellPairs cell idx with
        | none => .error ()
        | some pairs =>
          match List.insertionSort pairLe pairs with
          | [] => .ok none
          | a :: l =>
            .ok (lookupA idx
              (minBy (fun t => ((t.1 : Int) - (meas : Int)).natAbs) a l).2)

-- ---------- the rasterizer ----------

/-- A polygon: an ordered list of (x, y) points (clickData contour). -/
abbrev Polygon := List (Int × Int)

/-- A single-channel raster, row-major. -/
abbrev Mask := List (List Nat)

/-- np.zeros((h, w), dtype=uint8). -/
def zerosMask (h w : Nat) : Mask := List.replicate h (List.replicate w 0)

/-- rasterize_mask of 02_make_masks.py lines 47-54.  The reshaped contour
array has size 2 * (number of points), and only contours of size at least 6
are drawn.  cv2.drawContours is an external library routine (not part of
this repository), so it enters as the parameter draw; every claim proved
about the rasterizer holds for an arbitrary fill routine. -/
def rasterizeMask (draw : Mask → Polygon → Mask) (h w : Nat)
    (polygons : Option (List Polygon)) : Mask :=
  (polygons.getD []).foldl
    (fun mask poly => if 6 ≤ 2 * poly.length then draw mask poly else mask)
    (zerosMask h w)

-- ---------- annotation entries and key parsing ----------

/-- A value of the annotation JSON object: either not a dict (isinstance
check, lines 169/234) or a dict carrying the optional selection string and
the optional clickData polygon list. -/
inductive AnnEntry where
  | notDict
  | dict (selection : Option Str) (clickData : Option (List Polygon))
  deriving DecidableEq

/-- The single-quote character. -/
def quoteChar : Char := Char.ofNat 39

/-- The characters of the literal "manual". -/
def manualLit : Str := "manual".toList

/-- Consume one expected character. -/
def expectChar (c : Char) : Str → Option Str
  | [] => none
  | x :: rest => if x = c then some rest else none

/-- Consume a maximal nonempty digit run (a greedy regex group d+). -/
def takeDigits1 (s : Str) : Option (Str × Str) :=
  let ds := s.takeWhile Char.isDigit
  if ds.isEmpty then none else some (ds, s.drop ds.length)

/-- Python str.strip(): whitespace removed from both ends. -/
def pyStrip (s : Str) : Str :=
  ((s.dropWhile Char.isWhitespace).reverse.dropWhile Char.isWhitespace).reverse

/-- TUPLE_KEY_RE.fullmatch(k.strip()) with TUPLE_KEY_RE of line 34: an
opening parenthesis, a quoted digit run, a comma, optional whitespace, a
quoted digit run, a closing parenthesis, end of string; yields the two digit
groups. -/
def parseTupleKey (k : Str) : Option (Str × Str) := do
  let s0 := pyStrip k
  let s1 ← expectChar '(' s0
  let s2 ← expectChar quoteChar s1
  let (cellStr, s3) ← takeDigits1 s2
  let s4 ← expectChar quoteChar s3
  let s5 ← expectChar ',' s4
  let s6 := s5.dropWhile Char.isWhitespace
  let s7 ← expectChar quoteChar s6
  let (measStr, s8) ← takeDigits1 s7
  let s9 ← expectChar quoteChar s8
  let s10 ← expectChar ')' s9
  if s10.isEmpty then some (cellStr, measStr) else none

-- ---------- the per-dataset processing loops ----------

/-- The counters of one dataset pass together with the files it has written:
made/miss/skip/manual and ov_written as in process_rapid / process_rate, the
mask files as (annotation key that produced the write, output file name,
mask contents), and the overlay file names. -/
structure Tally where
  made : Nat
  miss : Nat
  skip : Nat
  manual : Nat
  ovWritten : Nat
  maskWrites : List (Str × Str × Mask)
  ovWrites : List Str
  deriving DecidableEq

/-- All counters zero, nothing written (lines 160-161 / 226-227). -/
def zeroTally : Tally := ⟨0, 0, 0, 0, 0, [], []⟩

/-- Config constant OVERLAYS of line 30. -/
def OVERLAYS_CFG : Bool := true

/-- Config constant SAMPLE_OVERLAYS_PER_SET of line 32. -/
def SAMPLE_CAP : Nat := 12

/-- The mask write and counter updates shared by the tails of both loop
bodies (lines 185-196 and 248-259): rasterize against the resolved image
dimensions, write the mask, bump made and manual, and write a sample
overlay while under the cap. -/
def writeStep (draw : Mask → Polygon → Mask) (k : Str) (p : DirFile)
    (hw : Nat × Nat) (clickData : Option (List Polygon)) (st : Tally) : Tally :=
  let mask := rasterizeMask draw hw.1 hw.2 clickData
  let st2 : Tally :=
    { st with
      made := st.made + 1
      manual := st.manual + 1
      maskWrites := st.maskWrites ++ [(k, p.stem ++ "_mask.png".toList, mask)] }
  if OVERLAYS_CFG && decide (st2.ovWritten < SAMPLE_CAP) then
    { st2 with
      ovWritten := st2.ovWritten + 1
      ovWrites := st2.ovWrites ++ [p.stem ++ "_overlay.png".toList] }
  else st2

/-- One iteration of the process_rapid loop, lines 164-196.  readImage
models cv2.imread plus .shape on the decoded raster: none is an unreadable
file, some (H, W) its dimensions. -/
def processRapidEntry (folder : List DirFile)
    (vdAnn : Option (List (Str × Bool)))
    (readImage : DirFile → Option (Nat × Nat))
    (draw : Mask → Polygon → Mask) (st : Tally) (kv : Str × AnnEntry) : Tally :=
  match parseTupleKey kv.1 with
  | none => st
  | some (cellStr, measStr) =>
    match kv.2 with
    | .notDict => { st with skip := st.skip + 1 }
    | .dict sel clickData =>
      if sel = some manualLit then
        match vdAnn with
        | some vd =>
          if (lookupA vd kv.1).getD false then
            match chooseRapidImage folder cellStr measStr with
            | none => { st with miss := st.miss + 1 }
            | some p =>
              match readImage p with
              | none => { st with miss := st.miss + 1 }
              | some hw => writeStep draw kv.1 p hw clickData st
          else { st with skip := st.skip + 1 }
        | none =>
          match chooseRapidImage folder cellStr measStr with
          | none => { st with miss := st.miss + 1 }
          | some p =>
            match readImage p with
            | none => { st with miss := st.miss + 1 }
            | some hw => writeStep draw kv.1 p hw clickData st
      else { st with skip := st.skip + 1 }

/-- The process_rapid loop over the annotation items, from the zeroed
counters of line 160. -/
def runRapid (entries : List (Str × AnnEntry)) (folder : List DirFile)
    (vdAnn : Option (List (Str × Bool)))
    (readImage : DirFile → Option (Nat × Nat))
    (draw : Mask → Polygon → Mask) : Tally :=
  entries.foldl (processRapidEntry folder vdAnn readImage draw) zeroTally

/-- One iteration of the process_rate loop, lines 230-259; an error escaping
choose_rate_image aborts the pass (Python would propagate the exception). -/
def processRateEntry (idx : List (Str × DirFile))
    (readImage : DirFile → Option (Nat × Nat))
    (draw : Mask → Polygon → Mask) (st : Tally) (kv : Str × AnnEntry) :
    Except Unit Tally :=
  match parseTupleKey kv.1 with
  | none => .ok st
  | some (cellStr, measStr) =>
    match kv.2 with
    | .notDict => .ok { st with skip := st.skip + 1 }
    | .dict sel clickData =>
      if sel = some manualLit then
        match chooseRateImage (stemFor cellStr measStr) idx with
        | .error e => .error e
        | .ok none => .ok { st with miss := st.miss + 1 }
        | .ok (some p) =>
          match readImage p with
          | none => .ok { st with miss := st.miss + 1 }
          | some hw => .ok (writeStep draw kv.1 p hw clickData st)
      else .ok { st with skip := st.skip + 1 }

/-- The process_rate loop over the annotation items, from the zeroed
counters of line 226. -/
def runRate (entries : List (Str × AnnEntry)) (idx : List (Str × DirFile))
    (readImage : DirFile → Option (Nat × Nat))
    (draw : Mask → Polygon → Mask) : Except Unit Tally :=
  entries.foldlM (processRateEntry idx readImage draw) zeroTally

-- ---------- annotation loading and the dataset batch ----------

/-- load_json of lines 41-45: the argument models reading and json-parsing
the file (error = absent, unreadable or unparsable), the try/except turns
any failure into None; parsing is all-or-nothing, never partial. -/
def loadJson (f : Except Unit (List (Str × AnnEntry))) :
    Option (List (Str × AnnEntry)) :=
  match f with
  | .ok a => some a
  | .error _ => none

/-- im_ann = load_json(ann_path) or the empty dict, line 216. -/
def annOrEmpty (f : Except Unit (List (Str × AnnEntry))) :
    List (Str × AnnEntry) :=
  (loadJson f).getD []

/-- The per-dataset inputs of one process_rate call: the annotation file
read result, the stem index of the dataset folder, and the two external
collaborators (image decoding, contour filling). -/
structure RateDataset where
  annFile : Except Unit (List (Str × AnnEntry))
  idx : List (Str × DirFile)
  readImage : DirFile → Option (Nat × Nat)
  draw : Mask → Polygon → Mask

/-- One process_rate call on a dataset: load (or default to empty) and run. -/
def runRateDataset (d : RateDataset) : Except Unit Tally :=
  runRate (annOrEmpty d.annFile) d.idx d.readImage d.draw

/-- The main loop of lines 264-276 restricted to the rate datasets it
dispatches: each dataset is processed independently, in order. -/
def runRateBatch (ds : List RateDataset) : List (Except Unit Tally) :=
  ds.map runRateDataset

-- ---------- association list lemmas ----------

theorem lookupZ_mem {β : Type} {l : List (Int × β)} {k : Int} {v : β}
    (h : lookupZ l k = some v) : (k, v) ∈ l := by
  induction l with
  | nil => simp [lookupZ] at h
  | cons a t ih =>
    obtain ⟨k2, v2⟩ := a
    unfold lookupZ at h
    by_cases hk : k2 = k
    · simp [hk] at h
      subst hk
      subst h
      exact List.mem_cons_self _ _
    · simp [hk] at h
      exact List.mem_cons_of_mem _ (ih h)

theorem lookupA_mem {β : Type} {l : List (Str × β)} {k : Str} {v : β}
    (h : lookupA l k = some v) : (k, v) ∈ l := by
  induction l with
  | nil => simp [lookupA] at h
  | cons a t ih =>
    obtain ⟨k2, v2⟩ := a
    unfold lookupA at h
    by_cases hk : k2 = k
    · simp [hk] at h
      subst hk
      subst h
      exact List.mem_cons_self _ _
    · simp [hk] at h
      exact List.mem_cons_of_mem _ (ih h)

theorem lookupZ_isSome_of_mem {β : Type} {l : List (Int × β)} {k : Int}
    (h : k ∈ l.map Prod.fst) : (lookupZ l k).isSome = true := by
  induction l with
  | nil => simp at h
  | cons a t ih =>
    obtain ⟨k2, v2⟩ := a
    unfold lookupZ
    by_cases hk : k2 = k
    · simp [hk]
    · simp only [List.map_cons, List.mem_cons] at h
      rcases h with h | h
      · exact absurd h.symm hk
      · simp [hk]
        exact ih h

theorem lookupA_isSome_of_mem {β : Type} {l : List (Str × β)} {k : Str}
    (h : k ∈ l.map Prod.fst) : (lookupA l k).isSome = true := by
  induction l with
  | nil => simp at h
  | cons a t ih =>
    obtain ⟨k2, v2⟩ := a
    unfold lookupA
    by_cases hk : k2 = k
    · simp [hk]
    · simp only [List.map_cons, List.mem_cons] at h
      rcases h with h | h
      · exact absurd h.symm hk
      · simp [hk]
        exact ih h

theorem mem_insertZ {β : Type} {l : List (Int × β)} {k : Int} {v : β} {x : Int × β}
    (h : x ∈ insertZ l k v) : x ∈ l ∨ x = (k, v) := by
  induction l with
  | nil => simp [insertZ] at h; exact Or.inr h
  | cons a t ih =>
    obtain ⟨k2, v2⟩ := a
    unfold insertZ at h
    by_cases hk : k2 = k
    · simp [hk] at h
      rcases h with h | h
      · exact Or.inr h
      · exact Or.inl (List.mem_cons_of_mem _ h)
    · simp [hk, List.mem_cons] at h
      rcases h with h | h
      · exact Or.inl (h ▸ List.mem_cons_self _ _)
      · rcases ih h with h2 | h2
        · exact Or.inl (List.mem_cons_of_mem _ h2)
        · exact Or.inr h2

theorem mem_insertA {β : Type} {l : List (Str × β)} {k : Str} {v : β} {x : Str × β}
    (h : x ∈ insertA l k v) : x ∈ l ∨ x = (k, v) := by
  induction l with
  | nil => simp [insertA] at h; exact Or.inr h
  | cons a t ih =>
    obtain ⟨k2, v2⟩ := a
    unfold insertA at h
    by_cases hk : k2 = k
    · simp [hk] at h
      rcases h with h | h
      · exact Or.inr h
      · exact Or.inl (List.mem_cons_of_mem _ h)
    · simp [hk, List.mem_cons] at h
      rcases h with h | h
      · exact Or.inl (h ▸ List.mem_cons_self _ _)
      · rcases ih h with h2 | h2
        · exact Or.inl (List.mem_cons_of_mem _ h2)
        · exact Or.inr h2

theorem keys_insertZ {β : Type} (l : List (Int × β)) (k : Int) (v : β) (x : Int) :
    x ∈ (insertZ l k v).map Prod.fst ↔ x = k ∨ x ∈ l.map Prod.fst := by
  induction l with
  | nil => simp [insertZ]
  | cons a t ih =>
    obtain ⟨k2, v2⟩ := a
    unfold insertZ
    by_cases hk : k2 = k
    · subst hk
      simp
    · simp only [hk, if_false, List.map_cons, List.mem_cons, ih]
      tauto

-- ---------- claim C4 ----------

theorem foldl_ite_filter {α β : Type} (q : α → Prop) [DecidablePred q]
    (f : β → α → β) (l : List α) (b : β) :
    l.foldl (fun acc x => if q x then f acc x else acc) b =
      (l.filter (fun x => decide (q x))).foldl f b := by
  induction l generalizing b with
  | nil => rfl
  | cons a t ih =>
    by_cases hq : q a
    · simp [List.filter_cons, hq, ih]
    · simp [List.filter_cons, hq, ih]

/-- Claim C4: for every height h, width w and polygon list, rasterize_mask
silently drops every polygon with fewer than 3 points (rasterization equals
rasterization of the filtered list, for any fill routine draw), and when the
polygon list is absent, empty, or all-degenerate the result is the all-zero
mask of exactly h rows and w columns. -/
theorem rasterize_degenerate_and_empty (draw : Mask → Polygon → Mask)
    (h w : Nat) (polys : List Polygon) :
    rasterizeMask draw h w none = zerosMask h w ∧
    rasterizeMask draw h w (some []) = zerosMask h w ∧
    rasterizeMask draw h w (some polys) =
      rasterizeMask draw h w (some (polys.filter (fun p => 6 ≤ 2 * p.length))) ∧
    ((∀ p ∈ polys, p.length < 3) →
      rasterizeMask draw h w (some polys) = zerosMask h w) ∧
    (zerosMask h w).length = h ∧
    (∀ row ∈ zerosMask h w, row.length = w) ∧
    (∀ row ∈ zerosMask h w, ∀ v ∈ row, v = 0) := by
  refine ⟨rfl, rfl, ?_, ?_, ?_, ?_, ?_⟩
  · unfold rasterizeMask
    simp only [Option.getD_some]
    rw [foldl_ite_filter (fun p : Polygon => 6 ≤ 2 * p.length)]
    rw [foldl_ite_filter (fun p : Polygon => 6 ≤ 2 * p.length)]
    congr 1
    rw [List.filter_filter]
    simp
  · intro hdeg
    unfold rasterizeMask
    simp only [Option.getD_some]
    rw [foldl_ite_filter (fun p : Polygon => 6 ≤ 2 * p.length)]
    have : polys.filter (fun p => decide (6 ≤ 2 * p.length)) = [] := by
      rw [List.filter_eq_nil_iff]
      intro p hp
      have := hdeg p hp
      simp only [decide_eq_true_eq]
      omega
    rw [this]
    rfl
  · simp [zerosMask]
  · intro row hrow
    rcases List.eq_of_mem_replicate hrow with rfl
    simp
  · intro row hrow v hv
    rcases List.eq_of_mem_replicate hrow with rfl
    rcases List.eq_of_mem_replicate hv with rfl
    rfl

theorem rasterize_degenerate_and_empty_witness :
    rasterizeMask (fun m _ => m.map (fun r => r.map (fun _ => 255))) 2 3
      (some [[((1 : Int), (2 : Int)), ((3 : Int), (4 : Int))]]) = zerosMask 2 3 :=
  (rasterize_degenerate_and_empty (fun m _ => m.map (fun r => r.map (fun _ => 255)))
    2 3 [[((1 : Int), (2 : Int)), ((3 : Int), (4 : Int))]]).2.2.2.1 (by decide)

-- ---------- claim C8 ----------

/-- Claim C8: the whole mask-generation pass is a pure function of its
inputs: two runs over equal annotation mappings, equal stem indexes or
folders, equal image decodings and equal fill routines resolve every key to
the same image and produce the same tally, so the same mask files with the
same contents are written (byte-identical regeneration). -/
theorem identical_inputs_identical_outputs
    (ann1 ann2 : List (Str × AnnEntry)) (idx1 idx2 : List (Str × DirFile))
    (folder1 folder2 : List DirFile) (vd1 vd2 : Option (List (Str × Bool)))
    (read1 read2 : DirFile → Option (Nat × Nat))
    (draw1 draw2 : Mask → Polygon → Mask)
    (stem : Str) (cellStr measStr : Str) (h w : Nat) (polys : Option (List Polygon))
    (hann : ann1 = ann2) (hidx : idx1 = idx2) (hfolder : folder1 = folder2)
    (hvd : vd1 = vd2) (hread : read1 = read2) (hdraw : draw1 = draw2) :
    chooseRateImage stem idx1 = chooseRateImage stem idx2 ∧
    chooseRapidImage folder1 cellStr measStr = chooseRapidImage folder2 cellStr measStr ∧
    rasterizeMask draw1 h w polys = rasterizeMask draw2 h w polys ∧
    runRapid ann1 folder1 vd1 read1 draw1 = runRapid ann2 folder2 vd2 read2 draw2 ∧
    runRate ann1 idx1 read1 draw1 = runRate ann2 idx2 read2 draw2 ∧
    (runRapid ann1 folder1 vd1 read1 draw1).maskWrites =
      (runRapid ann2 folder2 vd2 read2 draw2).maskWrites := by
  subst hann hidx hfolder hvd hread hdraw
  exact ⟨rfl, rfl, rfl, rfl, rfl, rfl⟩

theorem identical_inputs_identical_outputs_witness :
    runRate [] [] (fun _ => none) (fun m _ => m) =
      runRate [] [] (fun _ => none) (fun m _ => m) :=
  (identical_inputs_identical_outputs [] [] [] [] [] [] none none
    (fun _ => none) (fun _ => none) (fun m _ => m) (fun m _ => m)
    [] [] [] 0 0 none rfl rfl rfl rfl rfl rfl).2.2.2.2.1

-- ---------- claim C6 ----------

/-- Claim C6: loading an annotation file yields a key-to-entry mapping; an
absent or unparsable file yields the empty mapping and a successfully parsed
file yields the whole mapping (all-or-nothing, no partial parse and no
propagated exception since loadJson is total); running a dataset whose file
failed to load writes zero masks and leaves every counter zero; and in a
batch, every other dataset is processed exactly as it would be alone,
before and after the failing one. -/
theorem ann_load_failure_skips_dataset
    (f : Except Unit (List (Str × AnnEntry))) (a : List (Str × AnnEntry))
    (idx : List (Str × DirFile)) (readImage : DirFile → Option (Nat × Nat))
    (draw : Mask → Polygon → Mask)
    (ds1 ds2 : List RateDataset) (d : RateDataset) :
    (f = .error () → annOrEmpty f = []) ∧
    (f = .ok a → annOrEmpty f = a) ∧
    (f = .error () →
      runRate (annOrEmpty f) idx readImage draw = .ok zeroTally ∧
      zeroTally.maskWrites = [] ∧ zeroTally.made = 0) ∧
    runRateBatch (ds1 ++ d :: ds2) =
      runRateBatch ds1 ++ [runRateDataset d] ++ runRateBatch ds2 := by
  refine ⟨?_, ?_, ?_, ?_⟩
  · rintro rfl; rfl
  · rintro rfl; rfl
  · rintro rfl
    exact ⟨rfl, rfl, rfl⟩
  · unfold runRateBatch
    simp

theorem ann_load_failure_skips_dataset_witness :
    annOrEmpty (.error ()) = ([] : List (Str × AnnEntry)) :=
  (ann_load_failure_skips_dataset (.error ()) [] [] (fun _ => none) (fun m _ => m)
    [] [] ⟨.error (), [], fun _ => none, fun m _ => m⟩).1 rfl

-- ---------- claim C10 ----------

theorem writeStep_manual_made (draw : Mask → Polygon → Mask) (k : Str)
    (p : DirFile) (hw : Nat × Nat) (cd : Option (List Polygon)) (st : Tally) :
    (writeStep draw k p hw cd st).manual = st.manual + 1 ∧
    (writeStep draw k p hw cd st).made = st.made + 1 := by
  unfold writeStep
  by_cases hov : OVERLAYS_CFG && decide (st.ovWritten < SAMPLE_CAP)
  · simp [hov]
  · simp [hov]

theorem writeStep_mm {draw : Mask → Polygon → Mask} {k : Str} {p : DirFile}
    {hw : Nat × Nat} {cd : Option (List Polygon)} {st : Tally}
    (h : st.manual = st.made) :
    (writeStep draw k p hw cd st).manual = (writeStep draw k p hw cd st).made := by
  obtain ⟨h1, h2⟩ := writeStep_manual_made draw k p hw cd st
  rw [h1, h2, h]

theorem processRapidEntry_preserves_mm (folder : List DirFile)
    (vdAnn : Option (List (Str × Bool))) (readImage : DirFile → Option (Nat × Nat))
    (draw : Mask → Polygon → Mask) (st : Tally) (kv : Str × AnnEntry)
    (h : st.manual = st.made) :
    (processRapidEntry folder vdAnn readImage draw st kv).manual =
      (processRapidEntry folder vdAnn readImage draw st kv).made := by
  unfold processRapidEntry
  repeat' split
  all_goals first
    | exact h
    | exact writeStep_mm h

theorem processRateEntry_preserves_mm (idx : List (Str × DirFile))
    (readImage : DirFile → Option (Nat × Nat)) (draw : Mask → Polygon → Mask)
    (st st2 : Tally) (kv : Str × AnnEntry) (h : st.manual = st.made)
    (hstep : processRateEntry idx readImage draw st kv = .ok st2) :
    st2.manual = st2.made := by
  unfold processRateEntry at hstep
  repeat' split at hstep
  all_goals first
    | (cases hstep; exact h)
    | (cases hstep; exact writeStep_mm h)
    | cases hstep

theorem runRapid_aux_mm (folder : List DirFile)
    (vdAnn : Option (List (Str × Bool))) (readImage : DirFile → Option (Nat × Nat))
    (draw : Mask → Polygon → Mask) (entries : List (Str × AnnEntry)) (st : Tally)
    (h : st.manual = st.made) :
    (entries.foldl (processRapidEntry folder vdAnn readImage draw) st).manual =
      (entries.foldl (processRapidEntry folder vdAnn readImage draw) st).made := by
  induction entries generalizing st with
  | nil => exact h
  | cons a t ih =>
    exact ih _ (processRapidEntry_preserves_mm folder vdAnn readImage draw st a h)

theorem runRate_aux_mm (idx : List (Str × DirFile))
    (readImage : DirFile → Option (Nat × Nat)) (draw : Mask → Polygon → Mask)
    (entries : List (Str × AnnEntry)) (st st2 : Tally) (h : st.manual = st.made)
    (hrun : entries.foldlM (processRateEntry idx readImage draw) st = .ok st2) :
    st2.manual = st2.made := by
  induction entries generalizing st with
  | nil =>
    rw [List.foldlM_nil] at hrun
    rw [show (pure st : Except Unit Tally) = Except.ok st from rfl] at hrun
    cases hrun
    exact h
  | cons a t ih =>
    rw [List.foldlM_cons] at hrun
    cases hstep : processRateEntry idx readImage draw st a with
    | error e =>
      rw [hstep] at hrun
      rw [show ((Except.error e : Except Unit Tally) >>=
        t.foldlM (processRateEntry idx readImage draw)) = Except.error e from rfl] at hrun
      cases hrun
    | ok st1 =>
      rw [hstep] at hrun
      rw [show ((Except.ok st1 : Except Unit Tally) >>=
        t.foldlM (processRateEntry idx readImage draw)) =
        t.foldlM (processRateEntry idx readImage draw) st1 from rfl] at hrun
      exact ih st1 (processRateEntry_preserves_mm idx readImage draw st st1 a h hstep) hrun

/-- Claim C10: in process_rapid and process_rate the counters made and
manual are incremented together and only together, so after any pass over
any list of annotation entries (hence after every prefix of a dataset pass
and at the final reported tally) the manual count equals the count of masks
written. -/
theorem manual_count_equals_made_count
    (entries : List (Str × AnnEntry)) (folder : List DirFile)
    (vdAnn : Option (List (Str × Bool))) (idx : List (Str × DirFile))
    (readImage : DirFile → Option (Nat × Nat)) (draw : Mask → Polygon → Mask)
    (st2 : Tally) :
    (runRapid entries folder vdAnn readImage draw).manual =
      (runRapid entries folder vdAnn readImage draw).made ∧
    (runRate entries idx readImage draw = .ok st2 → st2.manual = st2.made) := by
  constructor
  · exact runRapid_aux_mm folder vdAnn readImage draw entries zeroTally rfl
  · intro hrun
    exact runRate_aux_mm idx readImage draw entries zeroTally st2 rfl hrun

theorem manual_count_equals_made_count_witness :
    zeroTally.manual = zeroTally.made :=
  (manual_count_equals_made_count [] [] none [] (fun _ => none) (fun m _ => m)
    zeroTally).2 rfl

-- ---------- claim C5 ----------

/-- The eligibility test of lines 169/234: the entry is a dict and its
selection field equals "manual". -/
def manualSelected : AnnEntry → Bool
  | .notDict => false
  | .dict sel _ => decide (sel = some manualLit)

theorem writeStep_maskWrites (draw : Mask → Polygon → Mask) (k : Str)
    (p : DirFile) (hw : Nat × Nat) (cd : Option (List Polygon)) (st : Tally) :
    (writeStep draw k p hw cd st).maskWrites =
      st.maskWrites ++
        [(k, p.stem ++ "_mask.png".toList, rasterizeMask draw hw.1 hw.2 cd)] := by
  unfold writeStep
  by_cases hov : OVERLAYS_CFG && decide (st.ovWritten < SAMPLE_CAP)
  · simp [hov]
  · simp [hov]

theorem processRapidEntry_writes (folder : List DirFile)
    (vdAnn : Option (List (Str × Bool))) (readImage : DirFile → Option (Nat × Nat))
    (draw : Mask → Polygon → Mask) (st : Tally) (k : Str) (e : AnnEntry) :
    ∀ w ∈ (processRapidEntry folder vdAnn readImage draw st (k, e)).maskWrites,
      w ∈ st.maskWrites ∨ (w.1 = k ∧ manualSelected e = true) := by
  cases e with
  | notDict =>
    unfold processRapidEntry
    simp only []
    repeat' split
    all_goals intro w hw
    all_goals exact Or.inl hw
  | dict sel cd =>
    by_cases hsel : sel = some manualLit
    · unfold processRapidEntry
      simp only []
      repeat' split
      all_goals intro w hw
      all_goals try exact Or.inl hw
      all_goals
        rw [writeStep_maskWrites] at hw
        rcases List.mem_append.mp hw with h1 | h1
        · exact Or.inl h1
        · rcases List.mem_singleton.mp h1 with rfl
          exact Or.inr ⟨rfl, by simp [manualSelected, hsel]⟩
    · unfold processRapidEntry
      simp only []
      repeat' split
      all_goals intro w hw
      all_goals first
        | exact Or.inl hw
        | exact absurd ‹sel = some manualLit› hsel

theorem processRateEntry_writes (idx : List (Str × DirFile))
    (readImage : DirFile → Option (Nat × Nat)) (draw : Mask → Polygon → Mask)
    (st st2 : Tally) (k : Str) (e : AnnEntry)
    (hstep : processRateEntry idx readImage draw st (k, e) = .ok st2) :
    ∀ w ∈ st2.maskWrites,
      w ∈ st.maskWrites ∨ (w.1 = k ∧ manualSelected e = true) := by
  cases e with
  | notDict =>
    unfold processRateEntry at hstep
    simp only [] at hstep
    repeat' split at hstep
    all_goals cases hstep
    all_goals intro w hw
    all_goals exact Or.inl hw
  | dict sel cd =>
    by_cases hsel : sel = some manualLit
    · unfold processRateEntry at hstep
      simp only [] at hstep
      repeat' split at hstep
      all_goals cases hstep
      all_goals intro w hw
      all_goals try exact Or.inl hw
      all_goals
        rw [writeStep_maskWrites] at hw
        rcases List.mem_append.mp hw with h1 | h1
        · exact Or.inl h1
        · rcases List.mem_singleton.mp h1 with rfl
          exact Or.inr ⟨rfl, by simp [manualSelected, hsel]⟩
    · unfold processRateEntry at hstep
      simp only [] at hstep
      repeat' split at hstep
      all_goals try exact absurd ‹sel = some manualLit› hsel
      all_goals cases hstep
      all_goals intro w hw
      all_goals exact Or.inl hw

theorem runRapid_writes_aux (folder : List DirFile)
    (vdAnn : Option (List (Str × Bool))) (readImage : DirFile → Option (Nat × Nat))
    (draw : Mask → Polygon → Mask) (entries : List (Str × AnnEntry)) (st : Tally) :
    ∀ w ∈ (entries.foldl (processRapidEntry folder vdAnn readImage draw) st).maskWrites,
      w ∈ st.maskWrites ∨ ∃ e, (w.1, e) ∈ entries ∧ manualSelected e = true := by
  induction entries generalizing st with
  | nil => intro w hw; exact Or.inl hw
  | cons a t ih =>
    intro w hw
    rcases ih (processRapidEntry folder vdAnn readImage draw st a) w hw with h | h
    · rcases processRapidEntry_writes folder vdAnn readImage draw st a.1 a.2 w
        (by simpa using h) with h2 | h2
      · exact Or.inl h2
      · exact Or.inr ⟨a.2, by rw [h2.1]; exact List.mem_cons_self _ _, h2.2⟩
    · rcases h with ⟨e, he, hm⟩
      exact Or.inr ⟨e, List.mem_cons_of_mem _ he, hm⟩

theorem runRate_writes_aux (idx : List (Str × DirFile))
    (readImage : DirFile → Option (Nat × Nat)) (draw : Mask → Polygon → Mask)
    (entries : List (Str × AnnEntry)) (st st2 : Tally)
    (hrun : entries.foldlM (processRateEntry idx readImage draw) st = .ok st2) :
    ∀ w ∈ st2.maskWrites,
      w ∈ st.maskWrites ∨ ∃ e, (w.1, e) ∈ entries ∧ manualSelected e = true := by
  induction entries generalizing st with
  | nil =>
    rw [List.foldlM_nil] at hrun
    rw [show (pure st : Except Unit Tally) = Except.ok st from rfl] at hrun
    cases hrun
    intro w hw
    exact Or.inl hw
  | cons a t ih =>
    rw [List.foldlM_cons] at hrun
    cases hstep : processRateEntry idx readImage draw st a with
    | error e =>
      rw [hstep] at hrun
      rw [show ((Except.error e : Except Unit Tally) >>=
        t.foldlM (processRateEntry idx readImage draw)) = Except.error e from rfl] at hrun
      cases hrun
    | ok st1 =>
      rw [hstep] at hrun
      rw [show ((Except.ok st1 : Except Unit Tally) >>=
        t.foldlM (processRateEntry idx readImage draw)) =
        t.foldlM (processRateEntry idx readImage draw) st1 from rfl] at hrun
      intro w hw
      rcases ih st1 hrun w hw with h | h
      · rcases processRateEntry_writes idx readImage draw st st1 a.1 a.2
          (by simpa using hstep) w h with h2 | h2
        · exact Or.inl h2
        · exact Or.inr ⟨a.2, by rw [h2.1]; exact List.mem_cons_self _ _, h2.2⟩
      · rcases h with ⟨e, he, hm⟩
        exact Or.inr ⟨e, List.mem_cons_of_mem _ he, hm⟩

theorem nodup_keys_unique {β : Type} {l : List (Str × β)} {k : Str} {a b : β}
    (hnd : (l.map Prod.fst).Nodup) (ha : (k, a) ∈ l) (hb : (k, b) ∈ l) : a = b := by
  induction l with
  | nil => simp at ha
  | cons x t ih =>
    rw [List.map_cons, List.nodup_cons] at hnd
    rcases List.mem_cons.mp ha with h1 | h1 <;> rcases List.mem_cons.mp hb with h2 | h2
    · exact congrArg Prod.snd (h1.trans h2.symm)
    · exfalso
      apply hnd.1
      have hk : (k, b).1 ∈ List.map Prod.fst t := List.mem_map_of_mem Prod.fst h2
      rw [← h1]
      exact hk
    · exfalso
      apply hnd.1
      have hk : (k, a).1 ∈ List.map Prod.fst t := List.mem_map_of_mem Prod.fst h1
      rw [← h2]
      exact hk
    · exact ih hnd.2 h1 h2

theorem processRapidEntry_nonmanual (folder : List DirFile)
    (vdAnn : Option (List (Str × Bool))) (readImage : DirFile → Option (Nat × Nat))
    (draw : Mask → Polygon → Mask) (st : Tally) (k : Str) (e : AnnEntry)
    (cellStr measStr : Str) (hp : parseTupleKey k = some (cellStr, measStr))
    (hm : manualSelected e = false) :
    processRapidEntry folder vdAnn readImage draw st (k, e) =
      { st with skip := st.skip + 1 } := by
  cases e with
  | notDict =>
    unfold processRapidEntry
    simp only [hp]
  | dict sel cd =>
    have hsel : ¬sel = some manualLit := by
      simpa [manualSelected] using hm
    unfold processRapidEntry
    simp only [hp]
    rw [if_neg hsel]

theorem processRateEntry_nonmanual (idx : List (Str × DirFile))
    (readImage : DirFile → Option (Nat × Nat)) (draw : Mask → Polygon → Mask)
    (st : Tally) (k : Str) (e : AnnEntry) (cellStr measStr : Str)
    (hp : parseTupleKey k = some (cellStr, measStr))
    (hm : manualSelected e = false) :
    processRateEntry idx readImage draw st (k, e) =
      .ok { st with skip := st.skip + 1 } := by
  cases e with
  | notDict =>
    unfold processRateEntry
    simp only [hp]
  | dict sel cd =>
    have hsel : ¬sel = some manualLit := by
      simpa [manualSelected] using hm
    unfold processRateEntry
    simp only [hp]
    rw [if_neg hsel]

/-- Claim C5: an entry whose key parses but whose selection is not "manual"
(including non-dict entries) makes the loop body increment exactly the skip
counter, leaving the miss counter and everything else unchanged, in both
process_rapid and process_rate; and over a whole pass with distinct keys, no
mask file is ever written for such an entry, whatever its polygon content. -/
theorem nonmanual_never_writes (folder : List DirFile)
    (vdAnn : Option (List (Str × Bool))) (idx : List (Str × DirFile))
    (readImage : DirFile → Option (Nat × Nat)) (draw : Mask → Polygon → Mask)
    (st st2 : Tally) (entries : List (Str × AnnEntry)) (k : Str) (e : AnnEntry)
    (cellStr measStr : Str)
    (hp : parseTupleKey k = some (cellStr, measStr))
    (hm : manualSelected e = false)
    (hnd : (entries.map Prod.fst).Nodup)
    (hmem : (k, e) ∈ entries) :
    processRapidEntry folder vdAnn readImage draw st (k, e) =
      { st with skip := st.skip + 1 } ∧
    processRateEntry idx readImage draw st (k, e) =
      .ok { st with skip := st.skip + 1 } ∧
    (∀ w ∈ (runRapid entries folder vdAnn readImage draw).maskWrites, w.1 ≠ k) ∧
    (runRate entries idx readImage draw = .ok st2 →
      ∀ w ∈ st2.maskWrites, w.1 ≠ k) := by
  refine ⟨processRapidEntry_nonmanual folder vdAnn readImage draw st k e
      cellStr measStr hp hm,
    processRateEntry_nonmanual idx readImage draw st k e cellStr measStr hp hm,
    ?_, ?_⟩
  · intro w hw hwk
    rcases runRapid_writes_aux folder vdAnn readImage draw entries zeroTally w hw
      with h | ⟨e2, he2, hm2⟩
    · simp [zeroTally] at h
    · rw [hwk] at he2
      rw [nodup_keys_unique hnd he2 hmem] at hm2
      rw [hm] at hm2
      exact Bool.false_ne_true hm2
  · intro hrun w hw hwk
    rcases runRate_writes_aux idx readImage draw entries zeroTally st2 hrun w hw
      with h | ⟨e2, he2, hm2⟩
    · simp [zeroTally] at h
    · rw [hwk] at he2
      rw [nodup_keys_unique hnd he2 hmem] at hm2
      rw [hm] at hm2
      exact Bool.false_ne_true hm2

/-- The annotation key string ('03', '0001') written out character by
character (the quotes are single-quote characters). -/
def keyLit0301 : Str :=
  ['(', quoteChar, '0', '3', quoteChar, ',', ' ',
   quoteChar, '0', '0', '0', '1', quoteChar, ')']

theorem nonmanual_never_writes_witness :
    processRapidEntry [] none (fun _ => none) (fun m _ => m) zeroTally
      (keyLit0301, AnnEntry.notDict) =
      { zeroTally with skip := zeroTally.skip + 1 } :=
  (nonmanual_never_writes [] none [] (fun _ => none) (fun m _ => m)
    zeroTally zeroTally [(keyLit0301, AnnEntry.notDict)] keyLit0301
    AnnEntry.notDict ['0', '3'] ['0', '0', '0', '1']
    (by decide) rfl (by simp) (List.mem_singleton.mpr rfl)).1

-- ---------- claim C7 ----------

theorem indexStrict_inv (l : List DirFile) (acc : List (Str × DirFile))
    (hacc : ∀ kp ∈ acc,
      kp.1 = lowerStr kp.2.stem ∧ kp.2.isFile = true ∧
      (lowerStr kp.2.ext = ".tif".toList ∨ lowerStr kp.2.ext = ".tiff".toList) ∧
      kp.2.parentName ≠ "masks".toList ∧ kp.2.parentName ≠ "overlays".toList ∧
      containsStr overlayLit (lowerStr kp.2.stem) = false) :
    ∀ kp ∈ l.foldl
      (fun idx p =>
        if p.isFile &&
           (lowerStr p.ext = ".tif".toList || lowerStr p.ext = ".tiff".toList) &&
           !(p.parentName = "masks".toList || p.parentName = "overlays".toList) &&
           !(containsStr overlayLit (lowerStr p.stem))
        then insertA idx (lowerStr p.stem) p
        else idx) acc,
      kp.1 = lowerStr kp.2.stem ∧ kp.2.isFile = true ∧
      (lowerStr kp.2.ext = ".tif".toList ∨ lowerStr kp.2.ext = ".tiff".toList) ∧
      kp.2.parentName ≠ "masks".toList ∧ kp.2.parentName ≠ "overlays".toList ∧
      containsStr overlayLit (lowerStr kp.2.stem) = false := by
  induction l generalizing acc with
  | nil => exact hacc
  | cons p t ih =>
    rw [List.foldl_cons]
    split
    · next hc =>
      apply ih
      intro kp hkp
      rcases mem_insertA hkp with h | h
      · exact hacc kp h
      · subst h
        simp only [Bool.and_eq_true, Bool.or_eq_true, decide_eq_true_eq,
          Bool.not_eq_true', Bool.or_eq_false_iff, decide_eq_false_iff_not] at hc
        exact ⟨rfl, hc.1.1.1, hc.1.1.2, hc.1.2.1, hc.1.2.2, hc.2⟩
    · exact ih acc hacc

theorem foldl_insertA_inv {P : Str × DirFile → Prop} (l : List DirFile)
    (acc : List (Str × DirFile))
    (hl : ∀ p ∈ l, P (lowerStr p.stem, p)) (hacc : ∀ kp ∈ acc, P kp) :
    ∀ kp ∈ l.foldl (fun idx p => insertA idx (lowerStr p.stem) p) acc, P kp := by
  induction l generalizing acc with
  | nil => exact hacc
  | cons p t ih =>
    rw [List.foldl_cons]
    apply ih
    · intro q hq
      exact hl q (List.mem_cons_of_mem p hq)
    · intro kp hkp
      rcases mem_insertA hkp with h | h
      · exact hacc kp h
      · rw [h]
        exact hl p (List.mem_cons_self p t)

theorem findImagesPermissive_mem {l : List DirFile} {p : DirFile}
    (h : p ∈ findImagesPermissive l) :
    p.isFile = true ∧
    (lowerStr p.ext = ".tif".toList ∨ lowerStr p.ext = ".tiff".toList ∨
     lowerStr p.ext = ".png".toList ∨ lowerStr p.ext = ".jpg".toList ∨
     lowerStr p.ext = ".jpeg".toList) := by
  unfold findImagesPermissive at h
  rw [List.mem_filter] at h
  have hc := h.2
  simp only [Bool.and_eq_true, Bool.or_eq_true, decide_eq_true_eq] at hc
  tauto

/-- Claim C7 (amended): every entry of the strict stem index maps a
lowercased stem to a regular .tif/.tiff file whose parent folder is neither
masks nor overlays and whose stem does not contain "overlay"; the permissive
variant guarantees only that every entry is a regular file with one of the
five recognized extensions keyed by its lowercased stem — it performs no
overlay-stem and no masks/overlays-parent exclusion. -/
theorem index_by_stem_filters (folder : List DirFile) :
    (∀ kp ∈ indexImagesByStem folder,
      kp.1 = lowerStr kp.2.stem ∧ kp.2.isFile = true ∧
      (lowerStr kp.2.ext = ".tif".toList ∨ lowerStr kp.2.ext = ".tiff".toList) ∧
      kp.2.parentName ≠ "masks".toList ∧ kp.2.parentName ≠ "overlays".toList ∧
      containsStr overlayLit (lowerStr kp.2.stem) = false) ∧
    (∀ kp ∈ indexImagesByStemPermissive folder,
      kp.1 = lowerStr kp.2.stem ∧ kp.2.isFile = true ∧
      (lowerStr kp.2.ext = ".tif".toList ∨ lowerStr kp.2.ext = ".tiff".toList ∨
       lowerStr kp.2.ext = ".png".toList ∨ lowerStr kp.2.ext = ".jpg".toList ∨
       lowerStr kp.2.ext = ".jpeg".toList)) := by
  constructor
  · exact indexStrict_inv (sortDir folder) [] (by intro kp h; simp at h)
  · intro kp hkp
    refine @foldl_insertA_inv
      (fun kp => kp.1 = lowerStr kp.2.stem ∧ kp.2.isFile = true ∧
        (lowerStr kp.2.ext = ".tif".toList ∨ lowerStr kp.2.ext = ".tiff".toList ∨
         lowerStr kp.2.ext = ".png".toList ∨ lowerStr kp.2.ext = ".jpg".toList ∨
         lowerStr kp.2.ext = ".jpeg".toList))
      (findImagesPermissive folder) [] ?_ (by intro q h; simp at h) kp hkp
    intro p hp
    obtain ⟨h1, h2⟩ := findImagesPermissive_mem hp
    exact ⟨rfl, h1, h2⟩

/-- A dataset folder holding the single file cell01meas0001_overlay.png. -/
def overlayFolderEx : List DirFile :=
  [⟨"cell01meas0001_overlay".toList, ".png".toList, true, "DN1-rate".toList⟩]

/-- Claim C7 as stated is false for the permissive variant: applied to a
folder holding only cell01meas0001_overlay.png, index_images_by_stem of
02_make_masks_hoseyn.py indexes that file even though its stem contains
"overlay". -/
theorem index_permissive_keeps_overlay_stem :
    ¬ (∀ kp ∈ indexImagesByStemPermissive overlayFolderEx,
        containsStr overlayLit kp.1 = false) := by
  decide

/-- A .png image file as the permissive variant accepts. -/
def pngFileEx : DirFile :=
  ⟨"cell01meas0001".toList, ".png".toList, true, "DN1-rate".toList⟩

theorem index_by_stem_filters_witness :
    ("cell01meas0001".toList, pngFileEx).1 = lowerStr pngFileEx.stem ∧
    pngFileEx.isFile = true ∧
    (lowerStr pngFileEx.ext = ".tif".toList ∨
     lowerStr pngFileEx.ext = ".tiff".toList ∨
     lowerStr pngFileEx.ext = ".png".toList ∨
     lowerStr pngFileEx.ext = ".jpg".toList ∨
     lowerStr pngFileEx.ext = ".jpeg".toList) :=
  (index_by_stem_filters [pngFileEx]).2 ("cell01meas0001".toList, pngFileEx)
    (by decide)

instance {α β : Type} [DecidableEq α] [DecidableEq β] :
    DecidableEq (Except α β) := fun x y =>
  match x, y with
  | .error a, .error b =>
    if h : a = b then isTrue (by rw [h]) else isFalse (by intro hc; cases hc; exact h rfl)
  | .ok a, .ok b =>
    if h : a = b then isTrue (by rw [h]) else isFalse (by intro hc; cases hc; exact h rfl)
  | .error _, .ok _ => isFalse (by intro hc; cases hc)
  | .ok _, .error _ => isFalse (by intro hc; cases hc)

-- ---------- claim C1 ----------

theorem foldl_min_mem (t : List Int) (k : Int) :
    t.foldl min k = k ∨ t.foldl min k ∈ t := by
  induction t generalizing k with
  | nil => exact Or.inl rfl
  | cons a t ih =>
    rw [List.foldl_cons]
    rcases ih (min k a) with h | h
    · rcases min_choice k a with h2 | h2
      · exact Or.inl (h.trans h2)
      · rw [h, h2]
        exact Or.inr (List.mem_cons_self a t)
    · exact Or.inr (List.mem_cons_of_mem a h)

theorem foldl_min_le (t : List Int) (k : Int) :
    t.foldl min k ≤ k ∧ ∀ x ∈ t, t.foldl min k ≤ x := by
  induction t generalizing k with
  | nil => exact ⟨le_refl k, by intro x hx; simp at hx⟩
  | cons a t ih =>
    rw [List.foldl_cons]
    obtain ⟨h1, h2⟩ := ih (min k a)
    refine ⟨h1.trans (min_le_left k a), ?_⟩
    intro x hx
    rcases List.mem_cons.mp hx with rfl | hx
    · exact h1.trans (min_le_right k x)
    · exact h2 x hx

theorem minKeysZ_spec {β : Type} (l : List (Int × β)) (hne : l ≠ []) :
    minKeysZ l ∈ l.map Prod.fst ∧ ∀ k ∈ l.map Prod.fst, minKeysZ l ≤ k := by
  unfold minKeysZ
  cases hmap : l.map Prod.fst with
  | nil => exact absurd (List.map_eq_nil_iff.mp hmap) hne
  | cons k t =>
    constructor
    · show t.foldl min k ∈ k :: t
      rcases foldl_min_mem t k with h | h
      · rw [h]
        exact List.mem_cons_self k t
      · exact List.mem_cons_of_mem k h
    · intro x hx
      show t.foldl min k ≤ x
      obtain ⟨h1, h2⟩ := foldl_min_le t k
      rcases List.mem_cons.mp hx with rfl | hx
      · exact h1
      · exact h2 x hx

theorem listImages_keys_aux (cellStr : Str) (l : List DirFile)
    (acc : List (Int × DirFile)) (x : Int) :
    x ∈ (l.foldl
      (fun acc p =>
        let s := lowerStr p.stem
        if (prefixFor (strToNat cellStr)).isPrefixOf s then
          match searchMeas s with
          | some m => insertZ acc (m : Int) p
          | none => acc
        else acc) acc).map Prod.fst ↔
      x ∈ acc.map Prod.fst ∨
        ∃ p ∈ l, (prefixFor (strToNat cellStr)).isPrefixOf (lowerStr p.stem) = true ∧
          ∃ m : Nat, searchMeas (lowerStr p.stem) = some m ∧ x = (m : Int) := by
  induction l generalizing acc with
  | nil => simp
  | cons p t ih =>
    rw [List.foldl_cons]
    by_cases hpre : (prefixFor (strToNat cellStr)).isPrefixOf (lowerStr p.stem) = true
    · cases hsm : searchMeas (lowerStr p.stem) with
      | none =>
        simp only [hpre, hsm, eq_self_iff_true, if_true]
        rw [ih]
        constructor
        · intro h
          rcases h with h | ⟨q, hq, h2⟩
          · exact Or.inl h
          · exact Or.inr ⟨q, List.mem_cons_of_mem p hq, h2⟩
        · intro h
          rcases h with h | ⟨q, hq, h2, m, hm, hx⟩
          · exact Or.inl h
          · rcases List.mem_cons.mp hq with rfl | hq
            · rw [hsm] at hm; cases hm
            · exact Or.inr ⟨q, hq, h2, m, hm, hx⟩
      | some m =>
        simp only [hpre, hsm, eq_self_iff_true, if_true]
        rw [ih]
        constructor
        · intro h
          rcases h with h | ⟨q, hq, h2⟩
          · rcases (keys_insertZ acc (m : Int) p x).mp h with h3 | h3
            · exact Or.inr ⟨p, List.mem_cons_self p t, hpre, m, hsm, h3⟩
            · exact Or.inl h3
          · exact Or.inr ⟨q, List.mem_cons_of_mem p hq, h2⟩
        · intro h
          rcases h with h | ⟨q, hq, h2, m2, hm2, hx⟩
          · exact Or.inl ((keys_insertZ acc (m : Int) p x).mpr (Or.inr h))
          · rcases List.mem_cons.mp hq with rfl | hq
            · rw [hsm] at hm2
              cases hm2
              exact Or.inl ((keys_insertZ acc (m : Int) q x).mpr (Or.inl hx))
            · exact Or.inr ⟨q, hq, h2, m2, hm2, hx⟩
    · simp only [if_neg hpre]
      rw [ih]
      constructor
      · intro h
        rcases h with h | ⟨q, hq, h2⟩
        · exact Or.inl h
        · exact Or.inr ⟨q, List.mem_cons_of_mem p hq, h2⟩
      · intro h
        rcases h with h | ⟨q, hq, h2, m, hm, hx⟩
        · exact Or.inl h
        · rcases List.mem_cons.mp hq with rfl | hq
          · exact absurd h2 hpre
          · exact Or.inr ⟨q, hq, h2, m, hm, hx⟩

theorem listImagesForCell_keys (folder : List DirFile) (cellStr : Str) (x : Int) :
    x ∈ (listImagesForCell folder cellStr).map Prod.fst ↔
      ∃ p ∈ findImages folder,
        (prefixFor (strToNat cellStr)).isPrefixOf (lowerStr p.stem) = true ∧
        ∃ m : Nat, searchMeas (lowerStr p.stem) = some m ∧ x = (m : Int) := by
  unfold listImagesForCell
  rw [listImages_keys_aux]
  simp

/-- Claim C1: for every dataset folder and key (cell, measurement), with B
the per-cell measurement index list_images_for_cell builds, choose_rapid_image
returns the image at the exact measurement if present; otherwise the image
at measurement - 1 if present; otherwise the image at the smallest
measurement present for that cell; and it returns None exactly when the
folder holds no image of that cell (no find_images file whose lowercased
stem starts with the cell prefix and carries a meas<digits> index). -/
theorem rapid_resolver_fallback_order (folder : List DirFile)
    (cellStr measStr : Str) (B : List (Int × DirFile)) (am : Int)
    (hB : B = listImagesForCell folder cellStr)
    (ham : am = (strToNat measStr : Int)) :
    (∀ p, lookupZ B am = some p →
      chooseRapidImage folder cellStr measStr = some p) ∧
    (∀ p, lookupZ B am = none → lookupZ B (am - 1) = some p →
      chooseRapidImage folder cellStr measStr = some p) ∧
    (B ≠ [] → lookupZ B am = none → lookupZ B (am - 1) = none →
      chooseRapidImage folder cellStr measStr = lookupZ B (minKeysZ B) ∧
      (lookupZ B (minKeysZ B)).isSome = true ∧
      minKeysZ B ∈ B.map Prod.fst ∧ ∀ k ∈ B.map Prod.fst, minKeysZ B ≤ k) ∧
    (chooseRapidImage folder cellStr measStr = none ↔
      ¬ ∃ p ∈ findImages folder,
          (prefixFor (strToNat cellStr)).isPrefixOf (lowerStr p.stem) = true ∧
          (searchMeas (lowerStr p.stem)).isSome = true) := by
  subst hB ham
  have hch : chooseRapidImage folder cellStr measStr =
      (if (listImagesForCell folder cellStr).isEmpty then none
       else
        match lookupZ (listImagesForCell folder cellStr)
            ((strToNat measStr : Int)) with
        | some p => some p
        | none =>
          match lookupZ (listImagesForCell folder cellStr)
              ((strToNat measStr : Int) - 1) with
          | some p => some p
          | none =>
            lookupZ (listImagesForCell folder cellStr)
              (minKeysZ (listImagesForCell folder cellStr))) := rfl
  refine ⟨?_, ?_, ?_, ?_⟩
  · intro p hex
    have hne : listImagesForCell folder cellStr ≠ [] := by
      intro h
      rw [h] at hex
      cases hex
    have hie : ¬((listImagesForCell folder cellStr).isEmpty = true) := by
      rw [List.isEmpty_iff]
      exact hne
    rw [hch, if_neg hie, hex]
  · intro p h1 h2
    have hne : listImagesForCell folder cellStr ≠ [] := by
      intro h
      rw [h] at h2
      cases h2
    have hie : ¬((listImagesForCell folder cellStr).isEmpty = true) := by
      rw [List.isEmpty_iff]
      exact hne
    rw [hch, if_neg hie, h1, h2]
  · intro hne h1 h2
    have hie : ¬((listImagesForCell folder cellStr).isEmpty = true) := by
      rw [List.isEmpty_iff]
      exact hne
    obtain ⟨hmem, hle⟩ := minKeysZ_spec (listImagesForCell folder cellStr) hne
    refine ⟨by rw [hch, if_neg hie, h1, h2], lookupZ_isSome_of_mem hmem, hmem, hle⟩
  · constructor
    · intro hcn
      rintro ⟨p, hp, hpre, hsome⟩
      obtain ⟨m, hm⟩ := Option.isSome_iff_exists.mp hsome
      have hkey : ((m : Int)) ∈ (listImagesForCell folder cellStr).map Prod.fst :=
        (listImagesForCell_keys folder cellStr (m : Int)).mpr ⟨p, hp, hpre, m, hm, rfl⟩
      have hne : listImagesForCell folder cellStr ≠ [] := by
        intro h
        rw [h] at hkey
        simp at hkey
      have hie : ¬((listImagesForCell folder cellStr).isEmpty = true) := by
        rw [List.isEmpty_iff]
        exact hne
      rw [hch, if_neg hie] at hcn
      cases hl1 : lookupZ (listImagesForCell folder cellStr)
          ((strToNat measStr : Int)) with
      | some q => rw [hl1] at hcn; simp at hcn
      | none =>
        rw [hl1] at hcn
        cases hl2 : lookupZ (listImagesForCell folder cellStr)
            ((strToNat measStr : Int) - 1) with
        | some q => rw [hl2] at hcn; simp at hcn
        | none =>
          rw [hl2] at hcn
          simp only [] at hcn
          obtain ⟨hmem, -⟩ := minKeysZ_spec (listImagesForCell folder cellStr) hne
          have := lookupZ_isSome_of_mem hmem
          rw [hcn] at this
          cases this
    · intro hnex
      have hempty : listImagesForCell folder cellStr = [] := by
        cases hl : listImagesForCell folder cellStr with
        | nil => rfl
        | cons kp t =>
          exfalso
          have hkey : kp.1 ∈ (listImagesForCell folder cellStr).map Prod.fst := by
            rw [hl]
            exact List.mem_map_of_mem Prod.fst (List.mem_cons_self kp t)
          obtain ⟨p, hp, hpre, m, hm, -⟩ :=
            (listImagesForCell_keys folder cellStr kp.1).mp hkey
          exact hnex ⟨p, hp, hpre, by rw [hm]; rfl⟩
      have hie : (listImagesForCell folder cellStr).isEmpty = true := by
        rw [List.isEmpty_iff]
        exact hempty
      rw [hch, if_pos hie]

/-- The image file cell01meas0002.tif. -/
def tifFileEx : DirFile :=
  ⟨"cell01meas0002".toList, ".tif".toList, true, "DN1-rapid".toList⟩

theorem rapid_resolver_fallback_order_witness :
    chooseRapidImage [tifFileEx] "1".toList "2".toList = some tifFileEx :=
  (rapid_resolver_fallback_order [tifFileEx] "1".toList "2".toList
    (listImagesForCell [tifFileEx] "1".toList)
    ((strToNat "2".toList : Int)) rfl rfl).1 tifFileEx (by decide)

-- ---------- claim C2 ----------

theorem tryOffsets_eq (cell meas : Nat) (idx : List (Str × DirFile)) :
    tryOffsets cell meas idx =
      (match lookupA idx (rateStem cell ((meas : Int) - 1)) with
       | some p => some p
       | none =>
         match lookupA idx (rateStem cell ((meas : Int) - 2)) with
         | some p => some p
         | none => lookupA idx (rateStem cell ((meas : Int) + 1))) := by
  unfold tryOffsets offsetDeltas
  rw [List.foldl_cons, List.foldl_cons, List.foldl_cons, List.foldl_nil]
  simp only []
  have e1 : (meas : Int) + (-1) = (meas : Int) - 1 := by ring
  have e2 : (meas : Int) + (-2) = (meas : Int) - 2 := by ring
  rw [e1, e2]
  cases lookupA idx (rateStem cell ((meas : Int) - 1)) with
  | some p => rfl
  | none =>
    cases lookupA idx (rateStem cell ((meas : Int) - 2)) with
    | some p => rfl
    | none => rfl

theorem chooseRate_after_miss (cell meas : Nat) (idx : List (Str × DirFile))
    (hx : lookupA idx (canonStem cell meas) = none) :
    chooseRateImage (canonStem cell meas) idx =
      (match tryOffsets cell meas idx with
       | some p => .ok (some p)
       | none =>
         match perCellPairs cell idx with
         | none => .error ()
         | some pairs =>
           match List.insertionSort pairLe pairs with
           | [] => .ok none
           | a :: l =>
             .ok (lookupA idx
               (minBy (fun t => ((t.1 : Int) - (meas : Int)).natAbs) a l).2)) := by
  unfold chooseRateImage
  simp only [hx, searchCellMeas_canon]

/-- Claim C2: when the exact canonical stem misses the index,
choose_rate_image probes the stems at measurement offsets -1, -2, +1 in
exactly that order and returns the image of the first offset present,
before any nearest-measurement search is attempted. -/
theorem rate_resolver_offset_order (cell meas : Nat)
    (idx : List (Str × DirFile))
    (hx : lookupA idx (canonStem cell meas) = none) :
    (∀ p, lookupA idx (rateStem cell ((meas : Int) - 1)) = some p →
      chooseRateImage (canonStem cell meas) idx = .ok (some p)) ∧
    (∀ p, lookupA idx (rateStem cell ((meas : Int) - 1)) = none →
      lookupA idx (rateStem cell ((meas : Int) - 2)) = some p →
      chooseRateImage (canonStem cell meas) idx = .ok (some p)) ∧
    (∀ p, lookupA idx (rateStem cell ((meas : Int) - 1)) = none →
      lookupA idx (rateStem cell ((meas : Int) - 2)) = none →
      lookupA idx (rateStem cell ((meas : Int) + 1)) = some p →
      chooseRateImage (canonStem cell meas) idx = .ok (some p)) := by
  refine ⟨?_, ?_, ?_⟩
  · intro p h1
    rw [chooseRate_after_miss cell meas idx hx, tryOffsets_eq, h1]
  · intro p h1 h2
    rw [chooseRate_after_miss cell meas idx hx, tryOffsets_eq, h1, h2]
  · intro p h1 h2 h3
    rw [chooseRate_after_miss cell meas idx hx, tryOffsets_eq, h1, h2, h3]

/-- The image file cell02meas0005.tif. -/
def tifFileEx5 : DirFile :=
  ⟨"cell02meas0005".toList, ".tif".toList, true, "DN3-rate".toList⟩

theorem rate_resolver_offset_order_witness :
    chooseRateImage (canonStem 2 7) [("cell02meas0005".toList, tifFileEx5)] =
      .ok (some tifFileEx5) :=
  (rate_resolver_offset_order 2 7 [("cell02meas0005".toList, tifFileEx5)]
    (by decide)).2.1 tifFileEx5 (by decide) (by decide)

-- ---------- claim C9 ----------

theorem isPrefixOf_self_append (A B : Str) : A.isPrefixOf (A ++ B) = true :=
  List.isPrefixOf_iff_prefix.mpr (List.prefix_append A B)

theorem listImages_values_aux (cellStr : Str) (l : List DirFile)
    (acc : List (Int × DirFile))
    (hacc : ∀ kp ∈ acc,
      (prefixFor (strToNat cellStr)).isPrefixOf (lowerStr kp.2.stem) = true) :
    ∀ kp ∈ l.foldl
      (fun acc p =>
        let s := lowerStr p.stem
        if (prefixFor (strToNat cellStr)).isPrefixOf s then
          match searchMeas s with
          | some m => insertZ acc (m : Int) p
          | none => acc
        else acc) acc,
      (prefixFor (strToNat cellStr)).isPrefixOf (lowerStr kp.2.stem) = true := by
  induction l generalizing acc with
  | nil => exact hacc
  | cons p t ih =>
    rw [List.foldl_cons]
    by_cases hpre : (prefixFor (strToNat cellStr)).isPrefixOf (lowerStr p.stem) = true
    · cases hsm : searchMeas (lowerStr p.stem) with
      | none =>
        simp only [hpre, hsm, eq_self_iff_true, if_true]
        exact ih acc hacc
      | some m =>
        simp only [hpre, hsm, eq_self_iff_true, if_true]
        apply ih
        intro kp hkp
        rcases mem_insertZ hkp with h | h
        · exact hacc kp h
        · rw [h]
          exact hpre
    · simp only [if_neg hpre]
      exact ih acc hacc

theorem listImagesForCell_values (folder : List DirFile) (cellStr : Str) :
    ∀ kp ∈ listImagesForCell folder cellStr,
      (prefixFor (strToNat cellStr)).isPrefixOf (lowerStr kp.2.stem) = true := by
  unfold listImagesForCell
  exact listImages_values_aux cellStr (findImages folder) []
    (by intro kp h; simp at h)

theorem chooseRapid_mem (folder : List DirFile) (cellStr measStr : Str)
    (p : DirFile) (h : chooseRapidImage folder cellStr measStr = some p) :
    ∃ k, (k, p) ∈ listImagesForCell folder cellStr := by
  have hch : chooseRapidImage folder cellStr measStr =
      (if (listImagesForCell folder cellStr).isEmpty then none
       else
        match lookupZ (listImagesForCell folder cellStr)
            ((strToNat measStr : Int)) with
        | some q => some q
        | none =>
          match lookupZ (listImagesForCell folder cellStr)
              ((strToNat measStr : Int) - 1) with
          | some q => some q
          | none =>
            lookupZ (listImagesForCell folder cellStr)
              (minKeysZ (listImagesForCell folder cellStr))) := rfl
  rw [hch] at h
  by_cases hie : (listImagesForCell folder cellStr).isEmpty = true
  · rw [if_pos hie] at h
    cases h
  · rw [if_neg hie] at h
    cases hl1 : lookupZ (listImagesForCell folder cellStr)
        ((strToNat measStr : Int)) with
    | some q =>
      rw [hl1] at h
      simp only [Option.some.injEq] at h
      subst h
      exact ⟨_, lookupZ_mem hl1⟩
    | none =>
      rw [hl1] at h
      cases hl2 : lookupZ (listImagesForCell folder cellStr)
          ((strToNat measStr : Int) - 1) with
      | some q =>
        rw [hl2] at h
        simp only [Option.some.injEq] at h
        subst h
        exact ⟨_, lookupZ_mem hl2⟩
      | none =>
        rw [hl2] at h
        simp only [] at h
        exact ⟨_, lookupZ_mem h⟩

theorem tryOffsets_mem (cell meas : Nat) (idx : List (Str × DirFile))
    (q : DirFile) (h : tryOffsets cell meas idx = some q) :
    ∃ i : Int, (rateStem cell i, q) ∈ idx := by
  rw [tryOffsets_eq] at h
  cases hl1 : lookupA idx (rateStem cell ((meas : Int) - 1)) with
  | some r =>
    rw [hl1] at h
    simp only [Option.some.injEq] at h
    subst h
    exact ⟨_, lookupA_mem hl1⟩
  | none =>
    rw [hl1] at h
    cases hl2 : lookupA idx (rateStem cell ((meas : Int) - 2)) with
    | some r =>
      rw [hl2] at h
      simp only [Option.some.injEq] at h
      subst h
      exact ⟨_, lookupA_mem hl2⟩
    | none =>
      rw [hl2] at h
      simp only [] at h
      exact ⟨_, lookupA_mem h⟩

theorem minBy_mem {α : Type} (f : α → Nat) (a : α) (l : List α) :
    minBy f a l ∈ a :: l := by
  unfold minBy
  induction l generalizing a with
  | nil => exact List.mem_cons_self a []
  | cons b t ih =>
    rw [List.foldl_cons]
    by_cases hb : f b < f a
    · simp only [hb, if_true]
      rcases List.mem_cons.mp (ih b) with h | h
      · rw [h]
        exact List.mem_cons_of_mem a (List.mem_cons_self b t)
      · exact List.mem_cons_of_mem a (List.mem_cons_of_mem b h)
    · simp only [hb, if_false]
      rcases List.mem_cons.mp (ih a) with h | h
      · rw [h]
        exact List.mem_cons_self a (b :: t)
      · exact List.mem_cons_of_mem a (List.mem_cons_of_mem b h)

theorem mapM_pairs_mem {g : Str → Option Nat} :
    ∀ {ks : List Str} {ps : List (Nat × Str)},
      ks.mapM (fun k => (g k).map (fun m => (m, k))) = some ps →
      ∀ q ∈ ps, q.2 ∈ ks ∧ g q.2 = some q.1 := by
  intro ks
  induction ks with
  | nil =>
    intro ps h q hq
    simp only [List.mapM_nil, pure, Option.some.injEq] at h
    rw [← h] at hq
    simp at hq
  | cons k t ih =>
    intro ps h q hq
    rw [List.mapM_cons] at h
    cases hg : g k with
    | none => rw [hg] at h; simp at h
    | some m =>
      rw [hg] at h
      cases ht : t.mapM (fun k => (g k).map (fun m => (m, k))) with
      | none => rw [ht] at h; simp at h
      | some ps2 =>
        rw [ht] at h
        have h2 : (m, k) :: ps2 = ps :=
          Option.some.inj (h : some ((m, k) :: ps2) = some ps)
        rw [← h2] at hq
        rcases List.mem_cons.mp hq with rfl | hq2
        · exact ⟨List.mem_cons_self k t, hg⟩
        · obtain ⟨h1, h2⟩ := ih ht q hq2
          exact ⟨List.mem_cons_of_mem k h1, h2⟩

/-- Claim C9: whichever fallback fires, a resolved image always belongs to
the requested cell.  choose_rapid_image only returns files whose lowercased
stem starts with the cell prefix, and choose_rate_image does too whenever
the index keys are the lowercased stems of their files (which both index
builders guarantee, claim C7). -/
theorem resolvers_stay_within_cell (folder : List DirFile)
    (cellStr measStr : Str) (cell meas : Nat) (idx : List (Str × DirFile))
    (p q : DirFile)
    (hwf : ∀ kp ∈ idx, kp.1 = lowerStr kp.2.stem) :
    (chooseRapidImage folder cellStr measStr = some p →
      (prefixFor (strToNat cellStr)).isPrefixOf (lowerStr p.stem) = true) ∧
    (chooseRateImage (canonStem cell meas) idx = .ok (some q) →
      (prefixFor cell).isPrefixOf (lowerStr q.stem) = true) := by
  constructor
  · intro h
    obtain ⟨k, hk⟩ := chooseRapid_mem folder cellStr measStr p h
    exact listImagesForCell_values folder cellStr (k, p) hk
  · intro h
    cases hx : lookupA idx (canonStem cell meas) with
    | some r =>
      have hr : chooseRateImage (canonStem cell meas) idx = .ok (some r) := by
        unfold chooseRateImage
        rw [hx]
      rw [h] at hr
      obtain rfl : q = r := Option.some.inj (Except.ok.inj hr)
      have hkey := hwf _ (lookupA_mem hx)
      have hkey2 : canonStem cell meas = lowerStr q.stem := hkey
      rw [← hkey2]
      show (prefixFor cell).isPrefixOf (prefixFor cell ++ fmtInt 4 (meas : Int)) = true
      exact isPrefixOf_self_append _ _
    | none =>
      rw [chooseRate_after_miss cell meas idx hx] at h
      cases hto : tryOffsets cell meas idx with
      | some r =>
        rw [hto] at h
        have hrq : r = q :=
          Option.some.inj (Except.ok.inj (h : Except.ok (some r) = .ok (some q)))
        obtain ⟨i, hmem⟩ := tryOffsets_mem cell meas idx r hto
        have hkey : rateStem cell i = lowerStr r.stem := hwf _ hmem
        rw [← hrq, ← hkey]
        show (prefixFor cell).isPrefixOf (prefixFor cell ++ fmtInt 4 i) = true
        exact isPrefixOf_self_append _ _
      | none =>
        rw [hto] at h
        cases hpc : perCellPairs cell idx with
        | none =>
          rw [hpc] at h
          cases h
        | some pairs =>
          rw [hpc] at h
          simp only [] at h
          cases hsort : List.insertionSort pairLe pairs with
          | nil =>
            rw [hsort] at h
            simp at h
          | cons a l =>
            rw [hsort] at h
            have hlk : lookupA idx
                (minBy (fun t => ((t.1 : Int) - (meas : Int)).natAbs) a l).2 =
                some q := Except.ok.inj h
            have hmemq := lookupA_mem hlk
            have hkey := hwf _ hmemq
            have hmin := minBy_mem
              (fun t => ((t.1 : Int) - (meas : Int)).natAbs) a l
            rw [← hsort] at hmin
            have hpairs : minBy (fun t => ((t.1 : Int) - (meas : Int)).natAbs) a l
                ∈ pairs := (List.perm_insertionSort pairLe pairs).mem_iff.mp hmin
            unfold perCellPairs at hpc
            obtain ⟨hks, -⟩ := mapM_pairs_mem hpc _ hpairs
            have hpre : (prefixFor cell).isPrefixOf
                (minBy (fun t => ((t.1 : Int) - (meas : Int)).natAbs) a l).2 =
                  true := (List.mem_filter.mp hks).2
            rw [← hkey]
            exact hpre

theorem resolvers_stay_within_cell_witness :
    (prefixFor (strToNat "1".toList)).isPrefixOf (lowerStr tifFileEx.stem) = true :=
  (resolvers_stay_within_cell [tifFileEx] "1".toList "2".toList 0 0 []
    tifFileEx tifFileEx (by intro kp h; simp at h)).1 (by decide)

-- ---------- claim C3 ----------

theorem mapM_pairs_total {g : Str → Option Nat} :
    ∀ (ks : List Str), (∀ k ∈ ks, (g k).isSome = true) →
      ∃ ps, ks.mapM (fun k => (g k).map (fun m => (m, k))) = some ps := by
  intro ks
  induction ks with
  | nil => exact fun _ => ⟨[], rfl⟩
  | cons k t ih =>
    intro hall
    obtain ⟨m, hm⟩ := Option.isSome_iff_exists.mp (hall k (List.mem_cons_self k t))
    obtain ⟨ps2, hps2⟩ := ih (fun x hx => hall x (List.mem_cons_of_mem k hx))
    refine ⟨(m, k) :: ps2, ?_⟩
    rw [List.mapM_cons, hm, hps2]
    rfl

theorem mapM_pairs_all {g : Str → Option Nat} :
    ∀ {ks : List Str} {ps : List (Nat × Str)},
      ks.mapM (fun k => (g k).map (fun m => (m, k))) = some ps →
      ∀ k ∈ ks, ∃ m, g k = some m ∧ (m, k) ∈ ps := by
  intro ks
  induction ks with
  | nil =>
    intro ps _ k hk
    simp at hk
  | cons k0 t ih =>
    intro ps h k hk
    rw [List.mapM_cons] at h
    cases hg : g k0 with
    | none => rw [hg] at h; simp at h
    | some m0 =>
      rw [hg] at h
      cases ht : t.mapM (fun k => (g k).map (fun m => (m, k))) with
      | none => rw [ht] at h; simp at h
      | some ps2 =>
        rw [ht] at h
        have h2 : (m0, k0) :: ps2 = ps :=
          Option.some.inj (h : some ((m0, k0) :: ps2) = some ps)
        rcases List.mem_cons.mp hk with rfl | hk2
        · exact ⟨m0, hg, h2 ▸ List.mem_cons_self (m0, k) ps2⟩
        · obtain ⟨m, hm, hmem⟩ := ih ht k hk2
          exact ⟨m, hm, h2 ▸ List.mem_cons_of_mem (m0, k0) hmem⟩

theorem minBy_first_spec {α : Type} (f : α → Nat) (fst : α → Nat) :
    ∀ (l : List α) (a : α),
      (a :: l).Pairwise (fun u v => fst u ≤ fst v) →
      (∀ x ∈ a :: l, f (minBy f a l) ≤ f x) ∧
      (∀ x ∈ a :: l, f x = f (minBy f a l) → fst (minBy f a l) ≤ fst x) := by
  intro l
  induction l with
  | nil =>
    intro a _
    constructor
    · intro x hx
      rcases List.mem_singleton.mp hx with rfl
      exact le_refl _
    · intro x hx _
      rcases List.mem_singleton.mp hx with rfl
      exact le_refl _
  | cons b t ih =>
    intro a hp
    have hminBy : minBy f a (b :: t) = minBy f (if f b < f a then b else a) t := by
      unfold minBy
      rw [List.foldl_cons]
    obtain ⟨hab, hp2⟩ := List.pairwise_cons.mp hp
    by_cases hfb : f b < f a
    · rw [hminBy, if_pos hfb]
      obtain ⟨ihle, ihtie⟩ := ih b hp2
      constructor
      · intro x hx
        rcases List.mem_cons.mp hx with rfl | hx2
        · exact le_of_lt (lt_of_le_of_lt (ihle b (List.mem_cons_self b t)) hfb)
        · exact ihle x hx2
      · intro x hx hfx
        rcases List.mem_cons.mp hx with rfl | hx2
        · exfalso
          have hle := ihle b (List.mem_cons_self b t)
          have : f (minBy f b t) < f x := lt_of_le_of_lt hle hfb
          rw [hfx] at this
          exact lt_irrefl _ this
        · exact ihtie x hx2 hfx
    · rw [hminBy, if_neg hfb]
      have hpat : (a :: t).Pairwise (fun u v => fst u ≤ fst v) := by
        rw [List.pairwise_cons]
        exact ⟨fun x hx => hab x (List.mem_cons_of_mem b hx),
          (List.pairwise_cons.mp hp2).2⟩
      obtain ⟨ihle, ihtie⟩ := ih a hpat
      have hfa_le_fb : f a ≤ f b := le_of_not_lt hfb
      constructor
      · intro x hx
        rcases List.mem_cons.mp hx with rfl | hx2
        · exact ihle x (List.mem_cons_self x t)
        · rcases List.mem_cons.mp hx2 with rfl | hx3
          · exact le_trans (ihle a (List.mem_cons_self a t)) hfa_le_fb
          · exact ihle x (List.mem_cons_of_mem a hx3)
      · intro x hx hfx
        rcases List.mem_cons.mp hx with rfl | hx2
        · exact ihtie x (List.mem_cons_self x t) hfx
        · rcases List.mem_cons.mp hx2 with rfl | hx3
          · have h1 := ihle a (List.mem_cons_self a t)
            have h2 : f a = f (minBy f a t) :=
              le_antisymm (le_trans hfa_le_fb (le_of_eq hfx)) h1
            exact le_trans (ihtie a (List.mem_cons_self a t) h2)
              (hab x (List.mem_cons_self x t))
          · exact ihtie x (List.mem_cons_of_mem a hx3) hfx

/-- Claim C3: when neither the exact stem nor any of the offsets -1, -2, +1
hits the index, choose_rate_image returns the indexed image of the same cell
whose measurement value is nearest to the requested measurement, and among
equidistant candidates the one with the smallest measurement value (the
first element of the sorted (measurement, key) tuples that attains the
minimal absolute difference); if the index holds no key of that cell at all
it returns None.  The hypothesis hwf (every indexed key of this cell carries
a parsable meas<digits> run) rules out the AttributeError path, which
otherwise raises before anything is returned. -/
theorem rate_resolver_nearest_tiebreak (cell meas : Nat)
    (idx : List (Str × DirFile))
    (hx : lookupA idx (canonStem cell meas) = none)
    (h1 : lookupA idx (rateStem cell ((meas : Int) - 1)) = none)
    (h2 : lookupA idx (rateStem cell ((meas : Int) - 2)) = none)
    (h3 : lookupA idx (rateStem cell ((meas : Int) + 1)) = none)
    (hwf : ∀ k ∈ idx.map Prod.fst,
      (prefixFor cell).isPrefixOf k = true → (searchMeas k).isSome = true) :
    ((idx.map Prod.fst).filter (fun k => (prefixFor cell).isPrefixOf k) = [] →
      chooseRateImage (canonStem cell meas) idx = .ok none) ∧
    ((idx.map Prod.fst).filter (fun k => (prefixFor cell).isPrefixOf k) ≠ [] →
      ∃ kStar mStar pStar,
        chooseRateImage (canonStem cell meas) idx = .ok (some pStar) ∧
        lookupA idx kStar = some pStar ∧
        kStar ∈ idx.map Prod.fst ∧
        (prefixFor cell).isPrefixOf kStar = true ∧
        searchMeas kStar = some mStar ∧
        (∀ k2 ∈ idx.map Prod.fst, ∀ m2 : Nat,
          (prefixFor cell).isPrefixOf k2 = true → searchMeas k2 = some m2 →
          ((mStar : Int) - (meas : Int)).natAbs ≤
            ((m2 : Int) - (meas : Int)).natAbs) ∧
        (∀ k2 ∈ idx.map Prod.fst, ∀ m2 : Nat,
          (prefixFor cell).isPrefixOf k2 = true → searchMeas k2 = some m2 →
          ((m2 : Int) - (meas : Int)).natAbs =
            ((mStar : Int) - (meas : Int)).natAbs →
          mStar ≤ m2)) := by
  have hto : tryOffsets cell meas idx = none := by
    rw [tryOffsets_eq, h1, h2, h3]
  constructor
  · intro hks
    have hpc0 : perCellPairs cell idx = some [] := by
      unfold perCellPairs
      rw [hks]
      rfl
    rw [chooseRate_after_miss cell meas idx hx, hto]
    simp only []
    rw [hpc0]
    rfl
  · intro hne
    have hall : ∀ k ∈ (idx.map Prod.fst).filter
        (fun k => (prefixFor cell).isPrefixOf k), (searchMeas k).isSome = true := by
      intro k hk
      obtain ⟨hk1, hk2⟩ := List.mem_filter.mp hk
      exact hwf k hk1 hk2
    obtain ⟨ps, hps⟩ := mapM_pairs_total _ hall
    have hpc : perCellPairs cell idx = some ps := by
      unfold perCellPairs
      exact hps
    have hpsne : ps ≠ [] := by
      intro hnil
      cases hksl : (idx.map Prod.fst).filter
          (fun k => (prefixFor cell).isPrefixOf k) with
      | nil => exact hne hksl
      | cons k0 t0 =>
        rw [hksl] at hps
        obtain ⟨m0, -, hmem0⟩ := mapM_pairs_all hps k0 (List.mem_cons_self k0 t0)
        rw [hnil] at hmem0
        simp at hmem0
    cases hsort : List.insertionSort pairLe ps with
    | nil =>
      exfalso
      apply hpsne
      have hperm := List.perm_insertionSort pairLe ps
      rw [hsort] at hperm
      exact hperm.nil_eq.symm
    | cons a l =>
      set f : Nat × Str → Nat :=
        fun t => ((t.1 : Int) - (meas : Int)).natAbs with hf
      have heq : chooseRateImage (canonStem cell meas) idx =
          .ok (lookupA idx (minBy f a l).2) := by
        rw [chooseRate_after_miss cell meas idx hx, hto]
        simp only []
        rw [hpc]
        simp only []
        rw [hsort]
      have hsorted : (a :: l).Pairwise (fun u v : Nat × Str => u.1 ≤ v.1) := by
        have hs := List.sorted_insertionSort pairLe ps
        rw [hsort] at hs
        exact hs.imp (fun hab => by
          rcases hab with h | ⟨h, -⟩
          · exact le_of_lt h
          · exact le_of_eq h)
      obtain ⟨hminle, hmintie⟩ := minBy_first_spec f Prod.fst l a hsorted
      have hminmem : minBy f a l ∈ ps :=
        (List.perm_insertionSort pairLe ps).mem_iff.mp
          (hsort ▸ minBy_mem f a l)
      obtain ⟨hkmem, hsearch⟩ := mapM_pairs_mem hps _ hminmem
      have hkeys : (minBy f a l).2 ∈ idx.map Prod.fst :=
        (List.mem_filter.mp hkmem).1
      have hpre : (prefixFor cell).isPrefixOf (minBy f a l).2 = true :=
        (List.mem_filter.mp hkmem).2
      obtain ⟨pStar, hpStar⟩ :=
        Option.isSome_iff_exists.mp (lookupA_isSome_of_mem hkeys)
      refine ⟨(minBy f a l).2, (minBy f a l).1, pStar, ?_, hpStar, hkeys, hpre,
        hsearch, ?_, ?_⟩
      · rw [heq, hpStar]
      · intro k2 hk2 m2 hpre2 hsm2
        have hk2f : k2 ∈ (idx.map Prod.fst).filter
            (fun k => (prefixFor cell).isPrefixOf k) :=
          List.mem_filter.mpr ⟨hk2, hpre2⟩
        obtain ⟨m2b, hm2b, hmem2⟩ := mapM_pairs_all hps k2 hk2f
        have hm2eq : m2b = m2 := Option.some.inj (hm2b.symm.trans hsm2)
        rw [hm2eq] at hmem2
        have hmem2s : (m2, k2) ∈ a :: l := by
          rw [← hsort]
          exact (List.perm_insertionSort pairLe ps).symm.mem_iff.mp hmem2
        exact hminle (m2, k2) hmem2s
      · intro k2 hk2 m2 hpre2 hsm2 hdist
        have hk2f : k2 ∈ (idx.map Prod.fst).filter
            (fun k => (prefixFor cell).isPrefixOf k) :=
          List.mem_filter.mpr ⟨hk2, hpre2⟩
        obtain ⟨m2b, hm2b, hmem2⟩ := mapM_pairs_all hps k2 hk2f
        have hm2eq : m2b = m2 := Option.some.inj (hm2b.symm.trans hsm2)
        rw [hm2eq] at hmem2
        have hmem2s : (m2, k2) ∈ a :: l := by
          rw [← hsort]
          exact (List.perm_insertionSort pairLe ps).symm.mem_iff.mp hmem2
        exact hmintie (m2, k2) hmem2s hdist

/-- A rate index holding exactly cell02meas0001.tif and cell02meas0009.tif. -/
def rateIdxEx : List (Str × DirFile) :=
  [("cell02meas0001".toList,
    ⟨"cell02meas0001".toList, ".tif".toList, true, "DN3-rate".toList⟩),
   ("cell02meas0009".toList,
    ⟨"cell02meas0009".toList, ".tif".toList, true, "DN3-rate".toList⟩)]

theorem rate_resolver_nearest_tiebreak_witness :
    ∃ kStar mStar pStar,
      chooseRateImage (canonStem 2 5) rateIdxEx = .ok (some pStar) ∧
      lookupA rateIdxEx kStar = some pStar ∧
      kStar ∈ rateIdxEx.map Prod.fst ∧
      (prefixFor 2).isPrefixOf kStar = true ∧
      searchMeas kStar = some mStar ∧
      (∀ k2 ∈ rateIdxEx.map Prod.fst, ∀ m2 : Nat,
        (prefixFor 2).isPrefixOf k2 = true → searchMeas k2 = some m2 →
        ((mStar : Int) - ((5 : Nat) : Int)).natAbs ≤
          ((m2 : Int) - ((5 : Nat) : Int)).natAbs) ∧
      (∀ k2 ∈ rateIdxEx.map Prod.fst, ∀ m2 : Nat,
        (prefixFor 2).isPrefixOf k2 = true → searchMeas k2 = some m2 →
        ((m2 : Int) - ((5 : Nat) : Int)).natAbs =
          ((mStar : Int) - ((5 : Nat) : Int)).natAbs →
        mStar ≤ m2) :=
  (rate_resolver_nearest_tiebreak 2 5 rateIdxEx (by decide) (by decide)
    (by decide) (by decide) (by decide)).2 (by decide)
